import Mathlib

/-!
Verification of the event-matching engine of the Ko-AD evaluation metric
(`eval_metric/utils.py`, `eval_metric/matchers.py`, `eval_metric/cli.py`).

The Python code is shallowly embedded: floating-point times, durations and
scores become rationals (`ℚ`), Python lists become `List`, `None` becomes
`Option.none`, and Python's stable `sort`/`sorted` becomes a stable
insertion sort (`sortS`) parameterised by the boolean "may go before"
comparison.  Each definition mirrors the corresponding Python function;
theorems then settle the specification claims against these definitions.
-/

namespace KoAD

/-- Embedding of `utils.ADEvent`: start time, end time, text and the
original index in its source list (Python default `-1`). -/
structure ADEvent where
  start : ℚ
  «end» : ℚ
  text : String
  index : Int := -1
deriving DecidableEq, Repr

/-- Embedding of `ADEvent.overlap_duration`: clamped length of the
intersection of the two time intervals. -/
def ADEvent.overlap_duration (a other : ADEvent) : ℚ :=
  let overlap_start := max a.start other.start
  let overlap_end := min a.«end» other.«end»
  max 0 (overlap_end - overlap_start)

/-- Embedding of `ADEvent.overlaps_with`: true when the overlap duration is
at least `min_overlap` seconds. -/
def ADEvent.overlaps_with (a other : ADEvent) (min_overlap : ℚ := 0) : Bool :=
  let overlap_start := max a.start other.start
  let overlap_end := min a.«end» other.«end»
  let od := max 0 (overlap_end - overlap_start)
  decide (min_overlap ≤ od)

/-- Embedding of `utils.MatchedPair`.  Python's `None` time bounds become
`Option.none`; the `score` field keeps its Python default `None`. -/
structure MatchedPair where
  gen_events : List ADEvent
  ref_events : List ADEvent
  gen_indices : List Int
  ref_indices : List Int
  combined_gen_text : String
  combined_ref_text : String
  gen_start : Option ℚ
  gen_end : Option ℚ
  ref_start : Option ℚ
  ref_end : Option ℚ
  matched : Bool
  match_type : String
  score : Option ℚ := none
deriving DecidableEq, Repr

/-- Stable insertion step: `x` is placed in front of the first element `y`
it may precede (`le x y`).  Elements comparing equal keep `x` (the earlier
element of the original list) first, matching Python's stable sorts. -/
def insertS {α : Type} (le : α → α → Bool) (x : α) : List α → List α
  | [] => [x]
  | y :: ys => if le x y then x :: y :: ys else y :: insertS le x ys

/-- Stable sort used to model Python's `sorted`/`list.sort`. -/
def sortS {α : Type} (le : α → α → Bool) (l : List α) : List α :=
  l.foldr (insertS le) []

/-- Comparison used by every `sorted(..., key=lambda e: e.start)` in the
Python code. -/
def startLe (a b : ADEvent) : Bool := decide (a.start ≤ b.start)

/-- Embedding of `utils.combine_texts`: space-join the texts after sorting
the events by start time (`''` for the empty list). -/
def combine_texts (events : List ADEvent) (separator : String := " ") : String :=
  if events = [] then ""
  else
    let sorted_events := sortS startLe events
    String.intercalate separator (sorted_events.map (fun e => e.text))

/-- Minimum of a list of rationals, mirroring Python's `min(...)` on a
non-empty iterable (the `0` default is never used by the embedding). -/
def listMin : List ℚ → ℚ
  | [] => 0
  | x :: xs => xs.foldl min x

/-- Maximum of a list of rationals, mirroring Python's `max(...)` on a
non-empty iterable. -/
def listMax : List ℚ → ℚ
  | [] => 0
  | x :: xs => xs.foldl max x

section SortLemmas

variable {α : Type} (le : α → α → Bool)

theorem insertS_perm (x : α) (l : List α) : (insertS le x l).Perm (x :: l) := by
  induction l with
  | nil => simp [insertS]
  | cons y ys ih =>
    simp only [insertS]
    split
    · exact List.Perm.refl _
    · exact ((ih.cons y).trans (List.Perm.swap x y ys))

theorem sortS_perm (l : List α) : (sortS le l).Perm l := by
  induction l with
  | nil => simp [sortS]
  | cons x xs ih =>
    simpa [sortS] using (insertS_perm le x (sortS le xs)).trans (ih.cons x)

theorem mem_sortS {x : α} {l : List α} : x ∈ sortS le l ↔ x ∈ l :=
  (sortS_perm le l).mem_iff

theorem insertS_sorted (htot : ∀ a b, le a b = true ∨ le b a = true)
    (htrans : ∀ a b c, le a b = true → le b c = true → le a c = true)
    (x : α) (l : List α) (hl : l.Pairwise (fun a b => le a b = true)) :
    (insertS le x l).Pairwise (fun a b => le a b = true) := by
  induction l with
  | nil => simp [insertS]
  | cons y ys ih =>
    simp only [insertS]
    rcases List.pairwise_cons.mp hl with ⟨hy, hys⟩
    split
    · rename_i hxy
      refine List.pairwise_cons.mpr ⟨?_, hl⟩
      intro z hz
      rcases hz with _ | hz
      · exact hxy
      · exact htrans x y z hxy (hy z (by assumption))
    · rename_i hxy
      have hyx : le y x = true := by
        rcases htot x y with h | h
        · exact absurd h hxy
        · exact h
      refine List.pairwise_cons.mpr ⟨?_, ih hys⟩
      intro z hz
      rcases List.mem_cons.mp ((insertS_perm le x ys).mem_iff.mp hz) with h | h
      · subst h
        exact hyx
      · exact hy z h

theorem sortS_sorted (htot : ∀ a b, le a b = true ∨ le b a = true)
    (htrans : ∀ a b c, le a b = true → le b c = true → le a c = true)
    (l : List α) : (sortS le l).Pairwise (fun a b => le a b = true) := by
  induction l with
  | nil => simp [sortS]
  | cons x xs ih => exact insertS_sorted le htot htrans x _ ih

end SortLemmas

section ListMinMax

theorem foldl_min_le (l : List ℚ) (x : ℚ) : l.foldl min x ≤ x := by
  induction l generalizing x with
  | nil => simp
  | cons y ys ih => exact le_trans (ih (min x y)) (min_le_left x y)

theorem foldl_min_le_mem {l : List ℚ} {z : ℚ} (hz : z ∈ l) (x : ℚ) :
    l.foldl min x ≤ z := by
  induction l generalizing x with
  | nil => cases hz
  | cons y ys ih =>
    simp only [List.foldl_cons]
    rcases List.mem_cons.mp hz with h | h
    · subst h
      exact le_trans (foldl_min_le ys (min x z)) (min_le_right x z)
    · exact ih h (min x y)

theorem foldl_min_mem (l : List ℚ) (x : ℚ) :
    l.foldl min x = x ∨ l.foldl min x ∈ l := by
  induction l generalizing x with
  | nil => simp
  | cons y ys ih =>
    rcases ih (min x y) with h | h
    · rcases min_cases x y with ⟨he, _⟩ | ⟨he, _⟩
      · exact Or.inl (by rw [List.foldl_cons, h, he])
      · exact Or.inr (by rw [List.foldl_cons, h, he]; exact List.mem_cons_self y ys)
    · exact Or.inr (List.mem_cons_of_mem y h)

theorem listMin_mem {l : List ℚ} (hl : l ≠ []) : listMin l ∈ l := by
  cases l with
  | nil => exact absurd rfl hl
  | cons x xs =>
    simp only [listMin]
    rcases foldl_min_mem xs x with h | h
    · rw [h]
      exact List.mem_cons_self x xs
    · exact List.mem_cons_of_mem x h

theorem listMin_le {l : List ℚ} {z : ℚ} (hz : z ∈ l) : listMin l ≤ z := by
  cases l with
  | nil => cases hz
  | cons x xs =>
    simp only [listMin]
    rcases List.mem_cons.mp hz with h | h
    · subst h
      exact foldl_min_le xs z
    · exact foldl_min_le_mem h x

theorem listMin_perm {l₁ l₂ : List ℚ} (h : l₁.Perm l₂) (hne : l₁ ≠ []) :
    listMin l₁ = listMin l₂ := by
  have hne₂ : l₂ ≠ [] := by
    intro he
    exact hne (List.Perm.eq_nil (he ▸ h))
  have h₁ := listMin_mem hne
  have h₂ := listMin_mem hne₂
  exact le_antisymm (listMin_le (h.mem_iff.mpr h₂)) (listMin_le (h.symm.mem_iff.mpr h₁))

theorem foldl_max_ge (l : List ℚ) (x : ℚ) : x ≤ l.foldl max x := by
  induction l generalizing x with
  | nil => simp
  | cons y ys ih => exact le_trans (le_max_left x y) (ih (max x y))

theorem foldl_max_ge_mem {l : List ℚ} {z : ℚ} (hz : z ∈ l) (x : ℚ) :
    z ≤ l.foldl max x := by
  induction l generalizing x with
  | nil => cases hz
  | cons y ys ih =>
    simp only [List.foldl_cons]
    rcases List.mem_cons.mp hz with h | h
    · subst h
      exact le_trans (le_max_right x z) (foldl_max_ge ys (max x z))
    · exact ih h (max x y)

theorem foldl_max_mem (l : List ℚ) (x : ℚ) :
    l.foldl max x = x ∨ l.foldl max x ∈ l := by
  induction l generalizing x with
  | nil => simp
  | cons y ys ih =>
    rcases ih (max x y) with h | h
    · rcases max_cases x y with ⟨he, _⟩ | ⟨he, _⟩
      · exact Or.inl (by rw [List.foldl_cons, h, he])
      · exact Or.inr (by rw [List.foldl_cons, h, he]; exact List.mem_cons_self y ys)
    · exact Or.inr (List.mem_cons_of_mem y h)

theorem listMax_mem {l : List ℚ} (hl : l ≠ []) : listMax l ∈ l := by
  cases l with
  | nil => exact absurd rfl hl
  | cons x xs =>
    simp only [listMax]
    rcases foldl_max_mem xs x with h | h
    · rw [h]
      exact List.mem_cons_self x xs
    · exact List.mem_cons_of_mem x h

theorem listMax_ge {l : List ℚ} {z : ℚ} (hz : z ∈ l) : z ≤ listMax l := by
  cases l with
  | nil => cases hz
  | cons x xs =>
    simp only [listMax]
    rcases List.mem_cons.mp hz with h | h
    · subst h
      exact foldl_max_ge xs z
    · exact foldl_max_ge_mem h x

theorem listMax_perm {l₁ l₂ : List ℚ} (h : l₁.Perm l₂) (hne : l₁ ≠ []) :
    listMax l₁ = listMax l₂ := by
  have hne₂ : l₂ ≠ [] := by
    intro he
    exact hne (List.Perm.eq_nil (he ▸ h))
  have h₁ := listMax_mem hne
  have h₂ := listMax_mem hne₂
  exact le_antisymm (listMax_ge (h.symm.mem_iff.mpr h₁)) (listMax_ge (h.mem_iff.mpr h₂))

end ListMinMax


section UnionFindDefs

/-- Embedding of `matchers.UnionFind` (parent and rank tables). -/
structure UnionFind where
  parent : List Nat
  rank : List Nat
deriving DecidableEq, Repr

/-- Parent-table lookup; out-of-range entries act as fixpoints (the Python
code only ever indexes in range). -/
def pget (p : List Nat) (x : Nat) : Nat := p.getD x x

/-- `UnionFind.__init__`: each node its own parent, all ranks `0`. -/
def UnionFind.init (n : Nat) : UnionFind :=
  { parent := List.range n, rank := List.replicate n 0 }

/-- The recursion of `UnionFind.find` with path compression, fuelled: the
call recurses along parent links and rewrites every visited node to point
at the root.  Fuel `parent.length` (used by `UnionFind.find`) dominates the
chain length in every state the matcher builds, so the embedding computes
exactly what the Python recursion computes. -/
def findAux : Nat → List Nat → Nat → List Nat × Nat
  | 0, p, x => (p, x)
  | fuel + 1, p, x =>
    let px := pget p x
    if px = x then (p, x)
    else
      let pr := findAux fuel p px
      (pr.1.set x pr.2, pr.2)

/-- Embedding of `UnionFind.find`. -/
def UnionFind.find (uf : UnionFind) (x : Nat) : UnionFind × Nat :=
  let pr := findAux uf.parent.length uf.parent x
  ({ parent := pr.1, rank := uf.rank }, pr.2)

/-- Embedding of `UnionFind.union` (union by rank; the root of lower rank
is attached below the other, and on equal ranks the surviving root's rank
is incremented). -/
def UnionFind.union (uf : UnionFind) (x y : Nat) : UnionFind :=
  let fx := uf.find x
  let fy := fx.1.find y
  let uf2 := fy.1
  let px := fx.2
  let py := fy.2
  if px = py then uf2
  else
    let a := if uf2.rank.getD px 0 < uf2.rank.getD py 0 then py else px
    let b := if uf2.rank.getD px 0 < uf2.rank.getD py 0 then px else py
    let rank2 :=
      if uf2.rank.getD a 0 = uf2.rank.getD b 0
      then uf2.rank.set a (uf2.rank.getD a 0 + 1)
      else uf2.rank
    { parent := uf2.parent.set b a, rank := rank2 }

/-- The representative of `x` computed by following parent links without
compression, fuelled. -/
def rootAux (p : List Nat) : Nat → Nat → Nat
  | 0, x => x
  | fuel + 1, x =>
    let px := pget p x
    if px = x then x else rootAux p fuel px

/-- Semantic root of `x` in parent table `p` (fuel `p.length` suffices for
every well-formed state, as proved below). -/
def rootD (p : List Nat) (x : Nat) : Nat := rootAux p p.length x

end UnionFindDefs

section ClusterDefs

/-- One entry of the unified working list of `ClusterMatcher.match`: the
event together with its origin tag (`'generated'` ↦ `true`). -/
structure Tagged where
  event : ADEvent
  isGen : Bool
deriving DecidableEq, Repr

instance : Inhabited ADEvent := ⟨{ start := 0, «end» := 0, text := "" }⟩

instance : Inhabited Tagged := ⟨{ event := default, isGen := true }⟩

instance : Inhabited MatchedPair :=
  ⟨{ gen_events := [], ref_events := [], gen_indices := [], ref_indices := [],
     combined_gen_text := "", combined_ref_text := "", gen_start := none,
     gen_end := none, ref_start := none, ref_end := none, matched := false,
     match_type := "" }⟩

/-- The unified event list: generated events first, then reference events,
as built by the two `append` loops of `ClusterMatcher.match`. -/
def unifiedEvents (gen_events ref_events : List ADEvent) : List Tagged :=
  gen_events.map (fun e => { event := e, isGen := true }) ++
    ref_events.map (fun e => { event := e, isGen := false })

/-- All index pairs `(i, j)` with `i < j < n` in the order of the nested
loops `for i in range(n): for j in range(i + 1, n)`. -/
def pairsBelow (n : Nat) : List (Nat × Nat) :=
  (List.range n).flatMap
    (fun i => (List.range' (i + 1) (n - (i + 1))).map (fun j => (i, j)))

/-- The edge-insertion double loop: union every pair of events overlapping
by at least `min_overlap_sec`. -/
def addEdges (evs : List Tagged) (min_overlap_sec : ℚ)
    (uf : UnionFind) (l : List (Nat × Nat)) : UnionFind :=
  l.foldl
    (fun acc pr =>
      if (evs.getD pr.1 default).event.overlaps_with (evs.getD pr.2 default).event
          min_overlap_sec
      then acc.union pr.1 pr.2
      else acc)
    uf

/-- The fully built union-find of one `ClusterMatcher.match` call. -/
def clusterUF (min_overlap_sec : ℚ) (gen_events ref_events : List ADEvent) : UnionFind :=
  let evs := unifiedEvents gen_events ref_events
  addEdges evs min_overlap_sec (UnionFind.init evs.length) (pairsBelow evs.length)

/-- The grouping loop's sequential `uf.find(i)` calls, threading the
compressed structure from one call to the next. -/
def computeRoots (uf : UnionFind) (l : List Nat) : UnionFind × List Nat :=
  l.foldl
    (fun acc i =>
      let pr := acc.1.find i
      (pr.1, acc.2 ++ [pr.2]))
    (uf, [])

/-- Fuelled recursion for `firstKeys` (fuel `l.length` always suffices:
each step filters at least the head away). -/
def firstKeysF : Nat → List Nat → List Nat
  | _, [] => []
  | 0, _ :: _ => []
  | fuel + 1, x :: xs => x :: firstKeysF fuel (xs.filter (fun y => y ≠ x))

/-- Keys of a Python dict in insertion order: the distinct values of the
list, keeping first occurrences. -/
def firstKeys (l : List Nat) : List Nat := firstKeysF l.length l

/-- The matched record built for a cluster containing both origins. -/
def mkClusterPair (gen_in_cluster ref_in_cluster : List ADEvent) : MatchedPair :=
  let gen_sorted := sortS startLe gen_in_cluster
  let ref_sorted := sortS startLe ref_in_cluster
  { gen_events := gen_sorted
    ref_events := ref_sorted
    gen_indices := gen_sorted.map (fun e => e.index)
    ref_indices := ref_sorted.map (fun e => e.index)
    combined_gen_text := combine_texts gen_sorted
    combined_ref_text := combine_texts ref_sorted
    gen_start := some (listMin (gen_sorted.map (fun e => e.start)))
    gen_end := some (listMax (gen_sorted.map (fun e => e.«end»)))
    ref_start := some (listMin (ref_sorted.map (fun e => e.start)))
    ref_end := some (listMax (ref_sorted.map (fun e => e.«end»)))
    matched := true
    match_type := "cluster" }

/-- The unmatched record built per event of a generated-only cluster. -/
def mkGenOnly (event : ADEvent) : MatchedPair :=
  { gen_events := [event]
    ref_events := []
    gen_indices := [event.index]
    ref_indices := []
    combined_gen_text := event.text
    combined_ref_text := ""
    gen_start := some event.start
    gen_end := some event.«end»
    ref_start := none
    ref_end := none
    matched := false
    match_type := "generated_only" }

/-- The unmatched record built per event of a reference-only cluster. -/
def mkRefOnly (event : ADEvent) : MatchedPair :=
  { gen_events := []
    ref_events := [event]
    gen_indices := []
    ref_indices := [event.index]
    combined_gen_text := ""
    combined_ref_text := event.text
    gen_start := none
    gen_end := none
    ref_start := some event.start
    ref_end := some event.«end»
    matched := false
    match_type := "reference_only" }

/-- Records emitted for one cluster, by origin content. -/
def clusterRecords (cluster_events : List Tagged) : List MatchedPair :=
  let gen_in_cluster := (cluster_events.filter (fun t => t.isGen)).map (fun t => t.event)
  let ref_in_cluster := (cluster_events.filter (fun t => !t.isGen)).map (fun t => t.event)
  if gen_in_cluster ≠ [] ∧ ref_in_cluster ≠ [] then
    [mkClusterPair gen_in_cluster ref_in_cluster]
  else if gen_in_cluster ≠ [] then
    gen_in_cluster.map mkGenOnly
  else
    ref_in_cluster.map mkRefOnly

/-- The final `matched_pairs.sort(key=sort_key)` key of
`ClusterMatcher.match`. -/
def pairSortKey (p : MatchedPair) : ℚ × Nat :=
  match p.gen_start with
  | some s => (s, 0)
  | none =>
    match p.ref_start with
    | some s => (s, 1)
    | none => (0, 2)

/-- Lexicographic "may go before" comparison on the sort keys. -/
def pairLe (p q : MatchedPair) : Bool :=
  let a := pairSortKey p
  let b := pairSortKey q
  decide (a.1 < b.1 ∨ (a.1 = b.1 ∧ a.2 ≤ b.2))

/-- Embedding of `ClusterMatcher.match`. -/
def clusterMatch (min_overlap_sec : ℚ) (gen_events ref_events : List ADEvent) :
    List MatchedPair :=
  let evs := unifiedEvents gen_events ref_events
  let n := evs.length
  if n = 0 then []
  else
    let uf := clusterUF min_overlap_sec gen_events ref_events
    let roots := (computeRoots uf (List.range n)).2
    let withRoots := evs.zip roots
    let keys := firstKeys roots
    let clusters :=
      keys.map (fun r => (withRoots.filter (fun pr => decide (pr.2 = r))).map (fun pr => pr.1))
    let matched_pairs := clusters.flatMap clusterRecords
    sortS pairLe matched_pairs

end ClusterDefs

section OverlapDefs

/-- `overlapping.sort(key=lambda x: -x[1])`: ascending in the negated
overlap, i.e. descending by overlap duration, stable. -/
def ovLe (a b : ADEvent × ℚ) : Bool := decide (b.2 ≤ a.2)

/-- The record `OverlapMatcher.match` emits for one generated event. -/
def overlapRecord (min_overlap_sec : ℚ) (gen_event : ADEvent)
    (ref_events : List ADEvent) : MatchedPair :=
  let overlapping :=
    (ref_events.map (fun r => (r, gen_event.overlap_duration r))).filter
      (fun pr => decide (min_overlap_sec ≤ pr.2))
  if overlapping = [] then
    { gen_events := [gen_event]
      ref_events := []
      gen_indices := [gen_event.index]
      ref_indices := []
      combined_gen_text := gen_event.text
      combined_ref_text := ""
      gen_start := some gen_event.start
      gen_end := some gen_event.«end»
      ref_start := none
      ref_end := none
      matched := false
      match_type := "no_overlap" }
  else
    let ref_sorted := (sortS ovLe overlapping).map (fun pr => pr.1)
    { gen_events := [gen_event]
      ref_events := ref_sorted
      gen_indices := [gen_event.index]
      ref_indices := ref_sorted.map (fun r => r.index)
      combined_gen_text := gen_event.text
      combined_ref_text := combine_texts ref_sorted
      gen_start := some gen_event.start
      gen_end := some gen_event.«end»
      ref_start := some (listMin (ref_sorted.map (fun r => r.start)))
      ref_end := some (listMax (ref_sorted.map (fun r => r.«end»)))
      matched := true
      match_type := "overlap" }

/-- Embedding of `OverlapMatcher.match`: one record per generated event, in
input order. -/
def overlapMatch (min_overlap_sec : ℚ) (gen_events ref_events : List ADEvent) :
    List MatchedPair :=
  gen_events.map (fun g => overlapRecord min_overlap_sec g ref_events)

end OverlapDefs

section DPDefs

/-- Embedding of `DPMatcher._temporal_iou`. -/
def temporal_iou (g r : ADEvent) : ℚ :=
  let inter_start := max g.start r.start
  let inter_end := min g.«end» r.«end»
  let intersection := max 0 (inter_end - inter_start)
  let union := (g.«end» - g.start) + (r.«end» - r.start) - intersection
  if union ≤ 0 then 0 else intersection / union

/-- Python's `s.lower().split()` viewed as a set: the set of non-empty
lower-cased whitespace-separated tokens. -/
def tokenSet (s : String) : Finset String :=
  ((s.toLower.split Char.isWhitespace).filter (fun t => t ≠ "")).toFinset

/-- Embedding of `DPMatcher._token_overlap_similarity`: Jaccard similarity
of lower-cased whitespace token sets (`0.0` when either set is empty). -/
def token_overlap_similarity (a b : String) : ℚ :=
  let sa := tokenSet a
  let sb := tokenSet b
  if sa = ∅ ∨ sb = ∅ then 0
  else ((sa ∩ sb).card : ℚ) / ((sa ∪ sb).card : ℚ)

/-- Configuration of `DPMatcher`.  `time_sim` stands for the function the
Python code selects with `time_soft` (`math.exp(-dt/time_scale)` — which
has no exact rational counterpart — when soft, `_temporal_iou` otherwise);
`text_sim` is the pluggable `text_sim_func`, defaulting to
`token_overlap_similarity`.  The verified claims depend only on how the
alignment uses the combined similarity values, never on `exp` itself. -/
structure DPConfig where
  w_time : ℚ := 3 / 10
  w_text : ℚ := 7 / 10
  gap_penalty_gen : ℚ := -(2 / 10)
  gap_penalty_ref : ℚ := -(2 / 10)
  time_sim : ADEvent → ADEvent → ℚ := temporal_iou
  text_sim : String → String → ℚ := token_overlap_similarity

/-- `DPMatcher._combined_similarity`. -/
def DPConfig.combined_similarity (cfg : DPConfig) (g r : ADEvent) : ℚ :=
  cfg.w_time * cfg.time_sim g r + cfg.w_text * cfg.text_sim g.text r.text

/-- Row `0` of the `_dp_align` table: `dp[0][0] = 0` and
`dp[0][j] = dp[0][j-1] + gap_penalty_ref`, `bt[0][j] = 2`. -/
def dpRow0 (gr : ℚ) : Nat → ℚ × Nat
  | 0 => (0, 0)
  | j + 1 => ((dpRow0 gr j).1 + gr, 2)

/-- Row `i + 1` of the `_dp_align` table given row `i` (`prev`), filled
left to right exactly as the inner loop does: column `0` accumulates the
generated gap penalty, and each interior cell takes the best of the
diagonal, skip-generated and skip-reference candidates, recording
0 = diagonal, 1 = skip-generated (up), 2 = skip-reference (left), with
strict comparisons so that ties keep the earlier choice. -/
def dpRowStep (S : Nat → Nat → ℚ) (gg gr : ℚ) (i : Nat) (prev : Nat → ℚ × Nat) :
    Nat → ℚ × Nat
  | 0 => ((prev 0).1 + gg, 1)
  | j + 1 =>
    let match_score := (prev j).1 + S i j
    let skip_gen_score := (prev (j + 1)).1 + gg
    let skip_ref_score := (dpRowStep S gg gr i prev j).1 + gr
    let best1 : ℚ × Nat :=
      if match_score < skip_gen_score then (skip_gen_score, 1) else (match_score, 0)
    if best1.1 < skip_ref_score then (skip_ref_score, 2) else best1

/-- The score and backtracking tables of `DPMatcher._dp_align`, built row
by row as the loops fill them: `dpbt S gg gr i j = (dp[i][j], bt[i][j])`. -/
def dpbt (S : Nat → Nat → ℚ) (gg gr : ℚ) : Nat → Nat → ℚ × Nat
  | 0 => dpRow0 gr
  | i + 1 => dpRowStep S gg gr i (dpbt S gg gr i)

/-- One step of the alignment: `(g_idx, r_idx, score)` of the Python
triple, with `None` as `Option.none`. -/
structure AlignStep where
  g : Option Nat
  r : Option Nat
  score : ℚ
deriving DecidableEq, Repr

/-- The backtracking loop of `_dp_align`, from `(i, j)` down to `(0, 0)`
(entries in reverse chronological order, as produced before the final
`alignment.reverse()`). -/
def backtrack (S : Nat → Nat → ℚ) (gg gr : ℚ) (bt : Nat → Nat → Nat) :
    Nat → Nat → List AlignStep
  | 0, 0 => []
  | 0, j + 1 => { g := none, r := some j, score := gr } :: backtrack S gg gr bt 0 j
  | i + 1, 0 => { g := some i, r := none, score := gg } :: backtrack S gg gr bt i 0
  | i + 1, j + 1 =>
    let move := bt (i + 1) (j + 1)
    if move = 0 then
      { g := some i, r := some j, score := S i j } :: backtrack S gg gr bt i j
    else if move = 1 then
      { g := some i, r := none, score := gg } :: backtrack S gg gr bt i (j + 1)
    else
      { g := none, r := some j, score := gr } :: backtrack S gg gr bt (i + 1) j
termination_by i j => i + j

/-- Embedding of `DPMatcher._dp_align` for an `n × m` similarity matrix:
backtrack from `(n, m)` and reverse into chronological order. -/
def dp_align (S : Nat → Nat → ℚ) (gg gr : ℚ) (n m : Nat) : List AlignStep :=
  (backtrack S gg gr (fun i j => (dpbt S gg gr i j).2) n m).reverse

/-- The `MatchedPair` built from one alignment entry in `DPMatcher.match`.
The Python `else` branch reads `ref_events[r_idx]` unconditionally; the
`none, none` combination never occurs in an alignment. -/
def dpPairRecord (gen_events ref_events : List ADEvent) (st : AlignStep) : MatchedPair :=
  match st.g with
  | some gi =>
    match st.r with
    | some ri =>
      let g := gen_events.getD gi default
      let r := ref_events.getD ri default
      { gen_events := [g]
        ref_events := [r]
        gen_indices := [g.index]
        ref_indices := [r.index]
        combined_gen_text := g.text
        combined_ref_text := r.text
        gen_start := some g.start
        gen_end := some g.«end»
        ref_start := some r.start
        ref_end := some r.«end»
        matched := true
        match_type := "dp_match"
        score := some st.score }
    | none =>
      let g := gen_events.getD gi default
      { gen_events := [g]
        ref_events := []
        gen_indices := [g.index]
        ref_indices := []
        combined_gen_text := g.text
        combined_ref_text := ""
        gen_start := some g.start
        gen_end := some g.«end»
        ref_start := none
        ref_end := none
        matched := false
        match_type := "dp_gen_gap"
        score := some st.score }
  | none =>
    let r := ref_events.getD (st.r.getD 0) default
    { gen_events := []
      ref_events := [r]
      gen_indices := []
      ref_indices := [r.index]
      combined_gen_text := ""
      combined_ref_text := r.text
      gen_start := none
      gen_end := none
      ref_start := some r.start
      ref_end := some r.«end»
      matched := false
      match_type := "dp_ref_gap"
      score := some st.score }

/-- Embedding of `DPMatcher.match`. -/
def dpMatch (cfg : DPConfig) (gen_events ref_events : List ADEvent) : List MatchedPair :=
  if gen_events = [] ∨ ref_events = [] then []
  else
    let S := fun i j =>
      cfg.combined_similarity (gen_events.getD i default) (ref_events.getD j default)
    let alignment :=
      dp_align S cfg.gap_penalty_gen cfg.gap_penalty_ref gen_events.length ref_events.length
    alignment.map (dpPairRecord gen_events ref_events)

end DPDefs

section StatsDefs

/-- `calculate_coverage_stats`'s `gen_matched`: the number of distinct
generated indices over records with `matched = True`. -/
def gen_matched (matched_pairs : List MatchedPair) : Nat :=
  (((matched_pairs.filter (fun p => p.matched)).flatMap (fun p => p.gen_indices)).dedup).length

/-- `calculate_coverage_stats`'s `ref_matched`, symmetric to
`gen_matched`. -/
def ref_matched (matched_pairs : List MatchedPair) : Nat :=
  (((matched_pairs.filter (fun p => p.matched)).flatMap (fun p => p.ref_indices)).dedup).length

/-- `run_evaluation`: `precision = matched_gen / total_gen if total_gen > 0
else 0.0`. -/
def precisionOf (matched_gen total_gen : Nat) : ℚ :=
  if 0 < total_gen then (matched_gen : ℚ) / (total_gen : ℚ) else 0

/-- `run_evaluation`: `recall = matched_ref / total_ref if total_ref > 0
else 0.0`. -/
def recallOf (matched_ref total_ref : Nat) : ℚ :=
  if 0 < total_ref then (matched_ref : ℚ) / (total_ref : ℚ) else 0

/-- `run_evaluation`: `f1 = 2*p*r/(p+r) if (p+r) > 0 else 0.0`. -/
def f1Of (p r : ℚ) : ℚ :=
  if 0 < p + r then 2 * p * r / (p + r) else 0

end StatsDefs



section EasyClaims

/-- C6: `overlap_duration(a,b) = max(0, min(ends) - max(starts))`;
`overlaps_with(a,b,m)` holds iff the overlap duration is at least `m`; and
`temporal_iou` is intersection over union (with
`union = dur(a) + dur(b) - intersection`), returning `0` whenever the union
is non-positive.  All three are pure functions of their arguments (their
embeddings are plain functions with no state). -/
theorem claim_C6 (a b : ADEvent) (min_overlap : ℚ) :
    a.overlap_duration b = max 0 (min a.«end» b.«end» - max a.start b.start) ∧
    (a.overlaps_with b min_overlap = true ↔ min_overlap ≤ a.overlap_duration b) ∧
    (((a.«end» - a.start) + (b.«end» - b.start) - a.overlap_duration b ≤ 0 →
        temporal_iou a b = 0) ∧
      (0 < (a.«end» - a.start) + (b.«end» - b.start) - a.overlap_duration b →
        temporal_iou a b =
          a.overlap_duration b /
            ((a.«end» - a.start) + (b.«end» - b.start) - a.overlap_duration b))) := by
  refine ⟨rfl, ?_, ?_, ?_⟩
  · simp [ADEvent.overlaps_with, ADEvent.overlap_duration]
  · intro h
    simp only [temporal_iou, ADEvent.overlap_duration]
    rw [if_pos]
    exact h
  · intro h
    simp only [temporal_iou, ADEvent.overlap_duration]
    rw [if_neg]
    exact not_le.mpr h

/-- Witness for C6 at a concrete pair of events. -/
theorem claim_C6_witness :
    let a : ADEvent := { start := 0, «end» := 3, text := "x", index := 0 }
    let b : ADEvent := { start := 1, «end» := 5, text := "y", index := 0 }
    a.overlap_duration b = max 0 (min a.«end» b.«end» - max a.start b.start) ∧
    (a.overlaps_with b 1 = true ↔ (1 : ℚ) ≤ a.overlap_duration b) := by
  have h := claim_C6 { start := 0, «end» := 3, text := "x", index := 0 }
    { start := 1, «end» := 5, text := "y", index := 0 } 1
  exact ⟨h.1, h.2.1⟩

/-- C10: the default DP text similarity is total.  If either lower-cased
whitespace token set is empty it returns `0` (without dividing); otherwise
it returns `|intersection| / |union|` where the union's size is positive,
and the result always lies in `[0, 1]`. -/
theorem claim_C10 (a b : String) :
    ((tokenSet a = ∅ ∨ tokenSet b = ∅) → token_overlap_similarity a b = 0) ∧
    (tokenSet a ≠ ∅ → tokenSet b ≠ ∅ →
      0 < ((tokenSet a ∪ tokenSet b).card : ℚ) ∧
        token_overlap_similarity a b =
          ((tokenSet a ∩ tokenSet b).card : ℚ) / ((tokenSet a ∪ tokenSet b).card : ℚ)) ∧
    0 ≤ token_overlap_similarity a b ∧ token_overlap_similarity a b ≤ 1 := by
  by_cases h : tokenSet a = ∅ ∨ tokenSet b = ∅
  · refine ⟨fun _ => ?_, fun ha hb => ?_, ?_, ?_⟩
    · simp [token_overlap_similarity, h]
    · rcases h with h | h
      · exact absurd h ha
      · exact absurd h hb
    · simp [token_overlap_similarity, h]
    · simp [token_overlap_similarity, h]
  · have hcard : 0 < ((tokenSet a ∪ tokenSet b).card : ℚ) := by
      push_neg at h
      have : (tokenSet a ∪ tokenSet b).Nonempty := by
        rcases Finset.nonempty_iff_ne_empty.mpr h.1 with ⟨x, hx⟩
        exact ⟨x, Finset.mem_union_left _ hx⟩
      exact_mod_cast Finset.card_pos.mpr this
    have hval : token_overlap_similarity a b =
        ((tokenSet a ∩ tokenSet b).card : ℚ) / ((tokenSet a ∪ tokenSet b).card : ℚ) := by
      simp [token_overlap_similarity, h]
    refine ⟨fun hc => absurd hc h, fun _ _ => ⟨hcard, hval⟩, ?_, ?_⟩
    · rw [hval]
      positivity
    · rw [hval]
      rw [div_le_one hcard]
      exact_mod_cast Finset.card_le_card
        (Finset.inter_subset_union (s := tokenSet a) (t := tokenSet b))

/-- Witness for C10 at concrete strings. -/
theorem claim_C10_witness :
    (tokenSet "Cat sits" ≠ ∅ → tokenSet "the cat" ≠ ∅ →
      0 < ((tokenSet "Cat sits" ∪ tokenSet "the cat").card : ℚ) ∧
        token_overlap_similarity "Cat sits" "the cat" =
          ((tokenSet "Cat sits" ∩ tokenSet "the cat").card : ℚ) /
            ((tokenSet "Cat sits" ∪ tokenSet "the cat").card : ℚ)) ∧
    0 ≤ token_overlap_similarity "Cat sits" "the cat" := by
  have h := claim_C10 "Cat sits" "the cat"
  exact ⟨h.2.1, h.2.2.1⟩

/-- C5: the statistics pipeline computes
`precision = gen_matched / total_gen`, `recall = ref_matched / total_ref`
and `f1 = 2PR/(P+R)`, each ratio defaulting to `0` when its denominator is
`0` (the guards mean no division by zero is ever evaluated);
`gen_matched` counts the distinct generated indices over records with
`matched = True`; and the concrete scenario `total_gen = 10`,
`gen_matched = 7`, `total_ref = 8`, `ref_matched = 4` yields
`precision = 0.7`, `recall = 0.5` and `f1 = 7/12 ≈ 0.5833`. -/
theorem claim_C5 (matched_pairs : List MatchedPair) (mg tg mr tr : Nat) (p r : ℚ) :
    (gen_matched matched_pairs =
        ((matched_pairs.filter (fun q => q.matched)).flatMap
          (fun q => q.gen_indices)).toFinset.card ∧
      ∀ i : Int,
        (i ∈ ((matched_pairs.filter (fun q => q.matched)).flatMap
            (fun q => q.gen_indices)).toFinset ↔
          ∃ q ∈ matched_pairs, q.matched = true ∧ i ∈ q.gen_indices)) ∧
    (0 < tg → precisionOf mg tg = (mg : ℚ) / tg) ∧ (tg = 0 → precisionOf mg tg = 0) ∧
    (0 < tr → recallOf mr tr = (mr : ℚ) / tr) ∧ (tr = 0 → recallOf mr tr = 0) ∧
    (0 < p + r → f1Of p r = 2 * p * r / (p + r)) ∧ (p + r = 0 → f1Of p r = 0) ∧
    precisionOf 7 10 = 7 / 10 ∧ recallOf 4 8 = 1 / 2 ∧
    f1Of (precisionOf 7 10) (recallOf 4 8) = 7 / 12 ∧
    |f1Of (precisionOf 7 10) (recallOf 4 8) - 5833 / 10000| < 1 / 10000 := by
  refine ⟨⟨(List.card_toFinset _).symm, fun i => ?_⟩, fun h => by simp [precisionOf, h],
    fun h => by simp [precisionOf, h], fun h => by simp [recallOf, h],
    fun h => by simp [recallOf, h], fun h => by simp [f1Of, h],
    fun h => by simp [f1Of, h], by norm_num [precisionOf],
    by norm_num [recallOf], by norm_num [precisionOf, recallOf, f1Of],
    by norm_num [precisionOf, recallOf, f1Of, abs_lt]⟩
  simp only [List.mem_toFinset, List.mem_flatMap, List.mem_filter]
  constructor
  · rintro ⟨q, ⟨hq, hm⟩, hi⟩
    exact ⟨q, hq, hm, hi⟩
  · rintro ⟨q, hq, hm, hi⟩
    exact ⟨q, ⟨hq, hm⟩, hi⟩

/-- Witness for C5 at concrete inputs (one matched record sharing an index
with an unmatched one). -/
theorem claim_C5_witness :
    precisionOf 7 10 = 7 / 10 ∧ recallOf 4 8 = 1 / 2 ∧
    f1Of (precisionOf 7 10) (recallOf 4 8) = 7 / 12 ∧
    (0 < (10 : Nat) → precisionOf 7 10 = (7 : ℚ) / 10) := by
  have h := claim_C5 [] 7 10 4 8 (7 / 10) (1 / 2)
  exact ⟨h.2.2.2.2.2.2.2.1, h.2.2.2.2.2.2.2.2.1, h.2.2.2.2.2.2.2.2.2.1, h.2.1⟩

end EasyClaims



section DPTableClaim

/-- C2: the `_dp_align` table satisfies `dp[0][0] = 0`; the first column
and row accumulate the generated/reference gap penalties; every interior
cell is the maximum of the diagonal, skip-generated and skip-reference
candidate scores; and on exact score ties the recorded backtracking move
prefers diagonal (`0`) over skip-generated (`1`) over skip-reference
(`2`), matching the order of the strict comparisons in the code. -/
theorem claim_C2 (S : Nat → Nat → ℚ) (gg gr : ℚ) (i j : Nat) :
    (dpbt S gg gr 0 0).1 = 0 ∧
    (dpbt S gg gr (i + 1) 0).1 = (dpbt S gg gr i 0).1 + gg ∧
    (dpbt S gg gr 0 (j + 1)).1 = (dpbt S gg gr 0 j).1 + gr ∧
    (dpbt S gg gr (i + 1) (j + 1)).1 =
      max ((dpbt S gg gr i j).1 + S i j)
        (max ((dpbt S gg gr i (j + 1)).1 + gg) ((dpbt S gg gr (i + 1) j).1 + gr)) ∧
    ((dpbt S gg gr i (j + 1)).1 + gg ≤ (dpbt S gg gr i j).1 + S i j →
      (dpbt S gg gr (i + 1) j).1 + gr ≤ (dpbt S gg gr i j).1 + S i j →
      (dpbt S gg gr (i + 1) (j + 1)).2 = 0) ∧
    ((dpbt S gg gr i j).1 + S i j < (dpbt S gg gr i (j + 1)).1 + gg →
      (dpbt S gg gr (i + 1) j).1 + gr ≤ (dpbt S gg gr i (j + 1)).1 + gg →
      (dpbt S gg gr (i + 1) (j + 1)).2 = 1) ∧
    ((dpbt S gg gr i j).1 + S i j < (dpbt S gg gr (i + 1) j).1 + gr →
      (dpbt S gg gr i (j + 1)).1 + gg < (dpbt S gg gr (i + 1) j).1 + gr →
      (dpbt S gg gr (i + 1) (j + 1)).2 = 2) := by
  set d := (dpbt S gg gr i j).1 + S i j with hd
  set sg := (dpbt S gg gr i (j + 1)).1 + gg with hsg
  set sr := (dpbt S gg gr (i + 1) j).1 + gr with hsr
  have hstep : dpbt S gg gr (i + 1) (j + 1) =
      if (if d < sg then ((sg, 1) : ℚ × Nat) else (d, 0)).1 < sr then (sr, 2)
      else if d < sg then (sg, 1) else (d, 0) := rfl
  refine ⟨rfl, rfl, rfl, ?_, ?_, ?_, ?_⟩
  · rw [hstep]
    by_cases h1 : d < sg
    · by_cases h2 : sg < sr
      · rw [if_pos h1, if_pos (show ((sg, 1) : ℚ × Nat).1 < sr from h2)]
        show sr = max d (max sg sr)
        rw [max_eq_right (le_of_lt h2), max_eq_right (le_of_lt (h1.trans h2))]
      · rw [if_pos h1, if_neg (show ¬((sg, 1) : ℚ × Nat).1 < sr from h2)]
        show sg = max d (max sg sr)
        rw [max_eq_left (not_lt.mp h2), max_eq_right (le_of_lt h1)]
    · by_cases h3 : d < sr
      · rw [if_neg h1, if_pos (show ((d, 0) : ℚ × Nat).1 < sr from h3)]
        show sr = max d (max sg sr)
        rw [max_eq_right (le_of_lt (lt_of_le_of_lt (not_lt.mp h1) h3)),
          max_eq_right (le_of_lt h3)]
      · rw [if_neg h1, if_neg (show ¬((d, 0) : ℚ × Nat).1 < sr from h3)]
        show d = max d (max sg sr)
        rw [max_eq_left (max_le (not_lt.mp h1) (not_lt.mp h3))]
  · intro hg hr
    rw [hstep, if_neg (not_lt.mpr hg), if_neg (show ¬((d, 0) : ℚ × Nat).1 < sr
      from not_lt.mpr hr)]
  · intro hg hr
    rw [hstep, if_pos hg, if_neg (show ¬((sg, 1) : ℚ × Nat).1 < sr from not_lt.mpr hr)]
  · intro hg hr
    rw [hstep]
    by_cases h1 : d < sg
    · rw [if_pos h1, if_pos (show ((sg, 1) : ℚ × Nat).1 < sr from hr)]
    · rw [if_neg h1, if_pos (show ((d, 0) : ℚ × Nat).1 < sr from hg)]

/-- Witness for C2: a concrete `2 × 2` table with an exact three-way tie at
the interior cell, resolved to the diagonal move. -/
theorem claim_C2_witness :
    (dpbt (fun _ _ => -1) (-1) (-1) 1 1).1 =
      max ((dpbt (fun _ _ => -1) (-1) (-1) 0 0).1 + (-1))
        (max ((dpbt (fun _ _ => -1) (-1) (-1) 0 1).1 + (-1))
          ((dpbt (fun _ _ => -1) (-1) (-1) 1 0).1 + (-1))) ∧
    (dpbt (fun _ _ => -1) (-1) (-1) 1 1).2 = 0 := by
  have h := claim_C2 (fun _ _ => -1) (-1) (-1) 0 0
  refine ⟨h.2.2.2.1, h.2.2.2.2.1 ?_ ?_⟩
  · norm_num [dpbt, dpRow0, dpRowStep]
  · norm_num [dpbt, dpRow0, dpRowStep]

end DPTableClaim



section CombineTextsClaim

/-- Strict-then-equal order on events by start time; antisymmetric, which
is what pins down the sorted order when all start times are distinct. -/
def startStrict (a b : ADEvent) : Prop := a.start < b.start ∨ a = b

instance : IsAntisymm ADEvent startStrict := by
  refine ⟨fun a b hab hba => ?_⟩
  rcases hab with h1 | h1
  · rcases hba with h2 | h2
    · exact absurd h2 (lt_asymm h1)
    · exact h2.symm
  · exact h1

theorem startLe_total (a b : ADEvent) : startLe a b = true ∨ startLe b a = true := by
  simp only [startLe, decide_eq_true_eq]
  exact le_total a.start b.start

theorem startLe_trans (a b c : ADEvent) :
    startLe a b = true → startLe b c = true → startLe a c = true := by
  simp only [startLe, decide_eq_true_eq]
  exact le_trans

/-- C4 as stated is false: `combine_texts` sorts stably by start time, so
two equal-start events keep their supply order and the combined text
depends on that order.  Here the same two events supplied in both orders
give `"a b"` and `"b a"`. -/
theorem claim_C4_counterexample :
    (([{ start := 0, «end» := 1, text := "a", index := 0 },
        { start := 0, «end» := 2, text := "b", index := 1 }] : List ADEvent).Perm
      [{ start := 0, «end» := 2, text := "b", index := 1 },
        { start := 0, «end» := 1, text := "a", index := 0 }]) ∧
    combine_texts
        [{ start := 0, «end» := 1, text := "a", index := 0 },
          { start := 0, «end» := 2, text := "b", index := 1 }] ≠
      combine_texts
        [{ start := 0, «end» := 2, text := "b", index := 1 },
          { start := 0, «end» := 1, text := "a", index := 0 }] := by
  constructor
  · exact List.Perm.swap _ _ _
  · decide

/-- C4 (amended): the combined text of a record is independent of the
order the events were supplied in, provided no two of the events share a
start time (with ties on start time, Python's stable sort preserves supply
order, so the text may differ — see the counterexample). -/
theorem claim_C4 (l₁ l₂ : List ADEvent) (sep : String) (hperm : l₁.Perm l₂)
    (hd : l₁.Pairwise (fun a b => a.start ≠ b.start)) :
    combine_texts l₁ sep = combine_texts l₂ sep := by
  by_cases h1 : l₁ = []
  · subst h1
    rw [hperm.symm.eq_nil]
  · have h2 : l₂ ≠ [] := fun he => h1 ((he ▸ hperm).eq_nil)
    have hsorted₁ := sortS_sorted startLe startLe_total startLe_trans l₁
    have hsorted₂ := sortS_sorted startLe startLe_total startLe_trans l₂
    have hsymm : ∀ {a b : ADEvent}, a.start ≠ b.start → b.start ≠ a.start :=
      fun h => Ne.symm h
    have hd₂ : l₂.Pairwise (fun a b => a.start ≠ b.start) :=
      (hperm.pairwise_iff hsymm).mp hd
    have hd₁' : (sortS startLe l₁).Pairwise (fun a b => a.start ≠ b.start) :=
      ((sortS_perm startLe l₁).pairwise_iff hsymm).mpr hd
    have hd₂' : (sortS startLe l₂).Pairwise (fun a b => a.start ≠ b.start) :=
      ((sortS_perm startLe l₂).pairwise_iff hsymm).mpr hd₂
    have hstrict₁ : (sortS startLe l₁).Pairwise startStrict :=
      (hsorted₁.and hd₁').imp
        (fun h => Or.inl (lt_of_le_of_ne (by simpa [startLe] using h.1) h.2))
    have hstrict₂ : (sortS startLe l₂).Pairwise startStrict :=
      (hsorted₂.and hd₂').imp
        (fun h => Or.inl (lt_of_le_of_ne (by simpa [startLe] using h.1) h.2))
    have key : sortS startLe l₁ = sortS startLe l₂ :=
      List.eq_of_perm_of_sorted
        (((sortS_perm startLe l₁).trans hperm).trans (sortS_perm startLe l₂).symm)
        hstrict₁ hstrict₂
    simp only [combine_texts, if_neg h1, if_neg h2, key]

/-- Witness for C4 (amended) at two events with distinct start times
supplied in both orders. -/
theorem claim_C4_witness :
    combine_texts
        [{ start := 0, «end» := 1, text := "a", index := 0 },
          { start := 2, «end» := 3, text := "b", index := 1 }] " " =
      combine_texts
        [{ start := 2, «end» := 3, text := "b", index := 1 },
          { start := 0, «end» := 1, text := "a", index := 0 }] " " :=
  claim_C4 _ _ " " (List.Perm.swap _ _ _) (by decide)

end CombineTextsClaim



section OverlapLemmas

/-- The reference events qualifying for one generated event in
`OverlapMatcher.match`: overlap duration at least `min_overlap_sec`, kept
in scan (input) order. -/
def qualifying (mo : ℚ) (e : ADEvent) (refs : List ADEvent) : List ADEvent :=
  refs.filter (fun x => decide (mo ≤ e.overlap_duration x))

theorem ovLe_total (a b : ADEvent × ℚ) : ovLe a b = true ∨ ovLe b a = true := by
  simp only [ovLe, decide_eq_true_eq]
  exact le_total b.2 a.2

theorem ovLe_trans (a b c : ADEvent × ℚ) :
    ovLe a b = true → ovLe b c = true → ovLe a c = true := by
  simp only [ovLe, decide_eq_true_eq]
  intro h1 h2
  exact le_trans h2 h1

/-- Inserting into the descending-by-overlap order never passes an element
of equal key, so the per-key subsequences are untouched. -/
theorem filter_insertS_ov (x : ADEvent × ℚ) (l : List (ADEvent × ℚ)) (c : ℚ) :
    (insertS ovLe x l).filter (fun pr => decide (pr.2 = c)) =
      if x.2 = c then x :: l.filter (fun pr => decide (pr.2 = c))
      else l.filter (fun pr => decide (pr.2 = c)) := by
  induction l with
  | nil => by_cases hx : x.2 = c <;> simp [insertS, hx]
  | cons y ys ih =>
    simp only [insertS]
    by_cases hle : ovLe x y = true
    · rw [if_pos hle]
      by_cases hx : x.2 = c <;> simp [List.filter_cons, hx]
    · rw [if_neg hle]
      by_cases hy : y.2 = c
      · have hx : ¬x.2 = c := by
          intro hx
          exact hle (by simp [ovLe, hy, hx])
        simp [List.filter_cons, hy, hx, ih]
      · by_cases hx : x.2 = c <;> simp [List.filter_cons, hy, hx, ih]

/-- Stability of the `key=lambda x: -x[1]` sort: elements of any fixed
overlap value keep their relative scan order. -/
theorem filter_sortS_ov (l : List (ADEvent × ℚ)) (c : ℚ) :
    (sortS ovLe l).filter (fun pr => decide (pr.2 = c)) =
      l.filter (fun pr => decide (pr.2 = c)) := by
  induction l with
  | nil => rfl
  | cons x xs ih =>
    show (insertS ovLe x (sortS ovLe xs)).filter _ = _
    rw [filter_insertS_ov]
    by_cases hx : x.2 = c <;> simp [List.filter_cons, hx, ih]

/-- Projecting the first component of the `(event, overlap)` pairing list
recovers the original list. -/
theorem map_fst_pairing (f : ADEvent → ℚ) (l : List ADEvent) :
    (l.map (fun r => (r, f r))).map (fun pr => pr.1) = l := by
  induction l with
  | nil => rfl
  | cons x xs ih => simp only [List.map_cons, ih]

/-- Full description of the record `OverlapMatcher.match` emits for one
generated event. -/
theorem overlapRecord_spec (mo : ℚ) (e : ADEvent) (refs : List ADEvent) :
    (overlapRecord mo e refs).gen_events = [e] ∧
    (overlapRecord mo e refs).gen_indices = [e.index] ∧
    (overlapRecord mo e refs).combined_gen_text = e.text ∧
    (overlapRecord mo e refs).gen_start = some e.start ∧
    (overlapRecord mo e refs).gen_end = some e.«end» ∧
    (qualifying mo e refs = [] →
      (overlapRecord mo e refs).matched = false ∧
      (overlapRecord mo e refs).match_type = "no_overlap" ∧
      (overlapRecord mo e refs).ref_events = [] ∧
      (overlapRecord mo e refs).ref_indices = [] ∧
      (overlapRecord mo e refs).combined_ref_text = "" ∧
      (overlapRecord mo e refs).ref_start = none ∧
      (overlapRecord mo e refs).ref_end = none) ∧
    (qualifying mo e refs ≠ [] →
      (overlapRecord mo e refs).matched = true ∧
      (overlapRecord mo e refs).match_type = "overlap" ∧
      (overlapRecord mo e refs).ref_events.Perm (qualifying mo e refs) ∧
      (overlapRecord mo e refs).ref_indices =
        (overlapRecord mo e refs).ref_events.map (fun r => r.index) ∧
      (overlapRecord mo e refs).ref_events.Pairwise
        (fun a b => e.overlap_duration b ≤ e.overlap_duration a) ∧
      (∀ c : ℚ,
        (overlapRecord mo e refs).ref_events.filter
            (fun x => decide (e.overlap_duration x = c)) =
          (qualifying mo e refs).filter (fun x => decide (e.overlap_duration x = c))) ∧
      (overlapRecord mo e refs).ref_start =
        some (listMin ((qualifying mo e refs).map (fun r => r.start))) ∧
      (overlapRecord mo e refs).ref_end =
        some (listMax ((qualifying mo e refs).map (fun r => r.«end»)))) := by
  have hov : (refs.map (fun r => (r, e.overlap_duration r))).filter
      (fun pr => decide (mo ≤ pr.2)) =
      (qualifying mo e refs).map (fun r => (r, e.overlap_duration r)) := by
    rw [List.filter_map]
    rfl
  by_cases hq : qualifying mo e refs = []
  · have hempty : (refs.map (fun r => (r, e.overlap_duration r))).filter
        (fun pr => decide (mo ≤ pr.2)) = [] := by
      rw [hov, hq]
      rfl
    refine ⟨?_, ?_, ?_, ?_, ?_, fun _ => ?_, fun hne => absurd hq hne⟩ <;>
      simp [overlapRecord, hempty]
  · have hne : (refs.map (fun r => (r, e.overlap_duration r))).filter
        (fun pr => decide (mo ≤ pr.2)) ≠ [] := by
      rw [hov]
      simp [hq]
    have hunf : overlapRecord mo e refs =
        (let ref_sorted := (sortS ovLe ((qualifying mo e refs).map
            (fun r => (r, e.overlap_duration r)))).map (fun pr => pr.1)
         { gen_events := [e]
           ref_events := ref_sorted
           gen_indices := [e.index]
           ref_indices := ref_sorted.map (fun r => r.index)
           combined_gen_text := e.text
           combined_ref_text := combine_texts ref_sorted
           gen_start := some e.start
           gen_end := some e.«end»
           ref_start := some (listMin (ref_sorted.map (fun r => r.start)))
           ref_end := some (listMax (ref_sorted.map (fun r => r.«end»)))
           matched := true
           match_type := "overlap" } : MatchedPair) := by
      rw [overlapRecord.eq_def]
      simp only [hov]
      rw [if_neg (by rw [hov] at hne; exact hne)]
    set q := qualifying mo e refs with hqdef
    set sorted := sortS ovLe (q.map (fun r => (r, e.overlap_duration r))) with hsorted_def
    have hmemkey : ∀ pr ∈ sorted, pr.2 = e.overlap_duration pr.1 := by
      intro pr hpr
      have : pr ∈ q.map (fun r => (r, e.overlap_duration r)) :=
        (mem_sortS ovLe).mp hpr
      rcases List.mem_map.mp this with ⟨r, _, hr⟩
      rw [← hr]
    have hperm : (sorted.map (fun pr => pr.1)).Perm q := by
      have h1 := (sortS_perm ovLe (q.map (fun r => (r, e.overlap_duration r)))).map
        (fun pr : ADEvent × ℚ => pr.1)
      rw [map_fst_pairing] at h1
      exact h1
    have hqne : q ≠ [] := hq
    have hsne : sorted.map (fun pr => pr.1) ≠ [] := by
      intro hnil
      rw [hnil] at hperm
      exact hqne (List.Perm.eq_nil hperm.symm)
    refine ⟨by rw [hunf], by rw [hunf], by rw [hunf], by rw [hunf], by rw [hunf],
      fun hc => absurd hc hq, fun _ => ?_⟩
    refine ⟨by rw [hunf], by rw [hunf], by rw [hunf]; exact hperm, by rw [hunf], ?_, ?_, ?_, ?_⟩
    · rw [hunf]
      refine List.pairwise_map.mpr ?_
      have hpw := sortS_sorted ovLe ovLe_total ovLe_trans
        (q.map (fun r => (r, e.overlap_duration r)))
      refine hpw.imp_of_mem ?_
      intro a b ha hb hab
      have hka := hmemkey a ha
      have hkb := hmemkey b hb
      rw [← hka, ← hkb]
      simpa [ovLe] using hab
    · intro c
      rw [hunf]
      show ((sorted.map (fun pr => pr.1)).filter (fun x => decide (e.overlap_duration x = c))) = _
      rw [List.filter_map]
      have hcongr : sorted.filter
          ((fun x => decide (e.overlap_duration x = c)) ∘ (fun pr : ADEvent × ℚ => pr.1)) =
          sorted.filter (fun pr => decide (pr.2 = c)) := by
        refine List.filter_congr ?_
        intro pr hpr
        simp only [Function.comp]
        rw [hmemkey pr hpr]
      rw [hcongr, hsorted_def, filter_sortS_ov, List.filter_map, map_fst_pairing]
      exact List.filter_congr (fun x _ => rfl)
    · rw [hunf]
      have hne2 : (sorted.map (fun pr => pr.1)).map (fun r => r.start) ≠ [] := by
        intro h0
        exact hsne (List.map_eq_nil_iff.mp h0)
      show some (listMin ((sorted.map (fun pr => pr.1)).map (fun r => r.start))) =
        some (listMin (q.map (fun r => r.start)))
      rw [listMin_perm (hperm.map (fun r : ADEvent => r.start)) hne2]
    · rw [hunf]
      have hne2 : (sorted.map (fun pr => pr.1)).map (fun r => r.«end») ≠ [] := by
        intro h0
        exact hsne (List.map_eq_nil_iff.mp h0)
      show some (listMax ((sorted.map (fun pr => pr.1)).map (fun r => r.«end»))) =
        some (listMax (q.map (fun r => r.«end»)))
      rw [listMax_perm (hperm.map (fun r : ADEvent => r.«end»)) hne2]

end OverlapLemmas



section OverlapClaim

/-- `Witness events used by several concrete instantiations.` -/
theorem getD_overlapMatch (mo : ℚ) (gen refs : List ADEvent) (k : Nat)
    (hk : k < gen.length) :
    (overlapMatch mo gen refs).getD k default =
      overlapRecord mo (gen.getD k default) refs := by
  simp only [overlapMatch, List.getD_eq_getElem?_getD, List.getElem?_map]
  rw [List.getElem?_eq_getElem hk]
  rfl

/-- C8: `OverlapMatcher.match` emits exactly one record per generated
event, in input order.  With `e` the `k`-th generated event and `q` the
reference events overlapping `e` by at least `min_overlap_sec` (in scan
order): the `k`-th record is exactly `overlapRecord` of `e`; it always
carries `[e]` on the generated side; when `q` is empty it is an unmatched
`no_overlap` record with empty reference fields; when `q` is non-empty it
is a matched `overlap` record whose reference events are a permutation of
`q`, sorted by descending overlap duration with ties keeping scan order
(the per-overlap-value subsequences equal those of `q`), with reference
bounds the min/max over `q`.  An empty generated list yields `[]`, and an
empty reference list makes every `q` empty (hence one `no_overlap` record
per generated event). -/
theorem claim_C8 (mo : ℚ) (gen refs : List ADEvent) (k : Nat) (hk : k < gen.length) :
    overlapMatch mo [] refs = [] ∧
    (overlapMatch mo gen refs).length = gen.length ∧
    (overlapMatch mo gen refs).getD k default =
      overlapRecord mo (gen.getD k default) refs ∧
    ((overlapRecord mo (gen.getD k default) refs).gen_events = [gen.getD k default] ∧
      (overlapRecord mo (gen.getD k default) refs).gen_indices = [(gen.getD k default).index] ∧
      (overlapRecord mo (gen.getD k default) refs).combined_gen_text =
        (gen.getD k default).text ∧
      (overlapRecord mo (gen.getD k default) refs).gen_start =
        some (gen.getD k default).start ∧
      (overlapRecord mo (gen.getD k default) refs).gen_end =
        some (gen.getD k default).«end» ∧
      (qualifying mo (gen.getD k default) refs = [] →
        (overlapRecord mo (gen.getD k default) refs).matched = false ∧
        (overlapRecord mo (gen.getD k default) refs).match_type = "no_overlap" ∧
        (overlapRecord mo (gen.getD k default) refs).ref_events = [] ∧
        (overlapRecord mo (gen.getD k default) refs).ref_indices = [] ∧
        (overlapRecord mo (gen.getD k default) refs).combined_ref_text = "" ∧
        (overlapRecord mo (gen.getD k default) refs).ref_start = none ∧
        (overlapRecord mo (gen.getD k default) refs).ref_end = none) ∧
      (qualifying mo (gen.getD k default) refs ≠ [] →
        (overlapRecord mo (gen.getD k default) refs).matched = true ∧
        (overlapRecord mo (gen.getD k default) refs).match_type = "overlap" ∧
        (overlapRecord mo (gen.getD k default) refs).ref_events.Perm
          (qualifying mo (gen.getD k default) refs) ∧
        (overlapRecord mo (gen.getD k default) refs).ref_indices =
          (overlapRecord mo (gen.getD k default) refs).ref_events.map (fun r => r.index) ∧
        (overlapRecord mo (gen.getD k default) refs).ref_events.Pairwise
          (fun a b => (gen.getD k default).overlap_duration b ≤
            (gen.getD k default).overlap_duration a) ∧
        (∀ c : ℚ,
          (overlapRecord mo (gen.getD k default) refs).ref_events.filter
              (fun x => decide ((gen.getD k default).overlap_duration x = c)) =
            (qualifying mo (gen.getD k default) refs).filter
              (fun x => decide ((gen.getD k default).overlap_duration x = c))) ∧
        (overlapRecord mo (gen.getD k default) refs).ref_start =
          some (listMin ((qualifying mo (gen.getD k default) refs).map (fun r => r.start))) ∧
        (overlapRecord mo (gen.getD k default) refs).ref_end =
          some (listMax ((qualifying mo (gen.getD k default) refs).map
            (fun r => r.«end»))))) ∧
    (refs = [] → qualifying mo (gen.getD k default) refs = []) := by
  refine ⟨rfl, by simp [overlapMatch], getD_overlapMatch mo gen refs k hk,
    overlapRecord_spec mo (gen.getD k default) refs, fun h => by simp [qualifying, h]⟩

/-- Witness for C8: concrete two-generated / one-reference instantiation
(Scenario A events), plus the empty-generated case. -/
theorem claim_C8_witness :
    overlapMatch (1 / 2) ([] : List ADEvent)
      [{ start := 1, «end» := 4, text := "cat sits", index := 0 }] = [] ∧
    (overlapMatch (1 / 2)
        [{ start := 0, «end» := 5, text := "cat", index := 0 },
          { start := 10, «end» := 15, text := "dog", index := 1 }]
        [{ start := 1, «end» := 4, text := "cat sits", index := 0 }]).length = 2 := by
  have h := claim_C8 (1 / 2)
    [{ start := 0, «end» := 5, text := "cat", index := 0 },
      { start := 10, «end» := 15, text := "dog", index := 1 }]
    [{ start := 1, «end» := 4, text := "cat sits", index := 0 }] 0 (by norm_num)
  refine ⟨h.1, ?_⟩
  rw [h.2.1]
  rfl

end OverlapClaim



section BacktrackLemmas

/-- Index coverage of the backtracking walk: from `(i, j)` it emits each
generated index below `i` exactly once and each reference index below `j`
exactly once, whatever the backtracking table says. -/
theorem backtrack_perm_aux (S : Nat → Nat → ℚ) (gg gr : ℚ) (bt : Nat → Nat → Nat) :
    ∀ n i j, i + j ≤ n →
      ((backtrack S gg gr bt i j).filterMap (fun st => st.g)).Perm (List.range i) ∧
      ((backtrack S gg gr bt i j).filterMap (fun st => st.r)).Perm (List.range j) := by
  intro n
  induction n with
  | zero =>
    intro i j h
    have hi : i = 0 := Nat.le_zero.mp (le_trans (Nat.le_add_right i j) h)
    have hj : j = 0 := Nat.le_zero.mp (le_trans (Nat.le_add_left j i) h)
    subst hi
    subst hj
    simp [backtrack]
  | succ n ih =>
    intro i j h
    match i, j with
    | 0, 0 => simp [backtrack]
    | 0, j + 1 =>
      have hrec := ih 0 j (by omega)
      rw [backtrack]
      refine ⟨by simpa [List.filterMap_cons] using hrec.1, ?_⟩
      simp only [List.filterMap_cons, List.range_succ]
      exact ((hrec.2.cons j).trans (List.perm_append_singleton j (List.range j)).symm)
    | i + 1, 0 =>
      have hrec := ih i 0 (by omega)
      rw [backtrack]
      refine ⟨?_, by simpa [List.filterMap_cons] using hrec.2⟩
      simp only [List.filterMap_cons, List.range_succ]
      exact ((hrec.1.cons i).trans (List.perm_append_singleton i (List.range i)).symm)
    | i + 1, j + 1 =>
      rw [backtrack]
      by_cases h0 : bt (i + 1) (j + 1) = 0
      · rw [if_pos h0]
        have hrec := ih i j (by omega)
        constructor
        · simp only [List.filterMap_cons, List.range_succ]
          exact ((hrec.1.cons i).trans (List.perm_append_singleton i (List.range i)).symm)
        · simp only [List.filterMap_cons, List.range_succ]
          exact ((hrec.2.cons j).trans (List.perm_append_singleton j (List.range j)).symm)
      · rw [if_neg h0]
        by_cases h1 : bt (i + 1) (j + 1) = 1
        · rw [if_pos h1]
          have hrec := ih i (j + 1) (by omega)
          constructor
          · simp only [List.filterMap_cons, List.range_succ]
            exact ((hrec.1.cons i).trans (List.perm_append_singleton i (List.range i)).symm)
          · simpa [List.filterMap_cons] using hrec.2
        · rw [if_neg h1]
          have hrec := ih (i + 1) j (by omega)
          constructor
          · simpa [List.filterMap_cons] using hrec.1
          · simp only [List.filterMap_cons, List.range_succ]
            exact ((hrec.2.cons j).trans (List.perm_append_singleton j (List.range j)).symm)

/-- Every backtracking step skipping the generated side still carries a
reference index (the Python `else` branch always reads `r_idx`). -/
theorem backtrack_wf (S : Nat → Nat → ℚ) (gg gr : ℚ) (bt : Nat → Nat → Nat) :
    ∀ n i j, i + j ≤ n →
      ∀ st ∈ backtrack S gg gr bt i j, st.g = none → st.r.isSome = true := by
  intro n
  induction n with
  | zero =>
    intro i j h st hst
    have hi : i = 0 := Nat.le_zero.mp (le_trans (Nat.le_add_right i j) h)
    have hj : j = 0 := Nat.le_zero.mp (le_trans (Nat.le_add_left j i) h)
    subst hi
    subst hj
    simp [backtrack] at hst
  | succ n ih =>
    intro i j h st hst hg
    match i, j with
    | 0, 0 => simp [backtrack] at hst
    | 0, j + 1 =>
      rw [backtrack] at hst
      rcases List.mem_cons.mp hst with h1 | h1
      · rw [h1]
        rfl
      · exact ih 0 j (by omega) st h1 hg
    | i + 1, 0 =>
      rw [backtrack] at hst
      rcases List.mem_cons.mp hst with h1 | h1
      · rw [h1] at hg
        cases hg
      · exact ih i 0 (by omega) st h1 hg
    | i + 1, j + 1 =>
      rw [backtrack] at hst
      by_cases h0 : bt (i + 1) (j + 1) = 0
      · rw [if_pos h0] at hst
        rcases List.mem_cons.mp hst with h1 | h1
        · rw [h1] at hg
          cases hg
        · exact ih i j (by omega) st h1 hg
      · rw [if_neg h0] at hst
        by_cases h1 : bt (i + 1) (j + 1) = 1
        · rw [if_pos h1] at hst
          rcases List.mem_cons.mp hst with h2 | h2
          · rw [h2] at hg
            cases hg
          · exact ih i (j + 1) (by omega) st h2 hg
        · rw [if_neg h1] at hst
          rcases List.mem_cons.mp hst with h2 | h2
          · rw [h2]
            rfl
          · exact ih (i + 1) j (by omega) st h2 hg

/-- Collapsing the per-record singleton or empty generated-index lists of
the DP records into the underlying alignment indices. -/
theorem flatten_dp_gen (gen_events ref_events : List ADEvent) (l : List AlignStep) :
    ((l.map (dpPairRecord gen_events ref_events)).map (fun p => p.gen_indices)).flatten =
      (l.filterMap (fun st => st.g)).map
        (fun gi => (gen_events.getD gi default).index) := by
  induction l with
  | nil => rfl
  | cons st rest ih =>
    cases hg : st.g with
    | none =>
      simp only [List.map_cons, List.flatten_cons, List.filterMap_cons, hg]
      rw [show (dpPairRecord gen_events ref_events st).gen_indices = [] from by
        simp [dpPairRecord, hg]]
      simpa using ih
    | some gi =>
      simp only [List.map_cons, List.flatten_cons, List.filterMap_cons, hg]
      rw [show (dpPairRecord gen_events ref_events st).gen_indices =
          [(gen_events.getD gi default).index] from by
        cases hr : st.r <;> simp [dpPairRecord, hg, hr]]
      rw [List.singleton_append, ih]

/-- Reference-side analogue of `flatten_dp_gen`; needs that no step drops
both indices (which backtracking guarantees). -/
theorem flatten_dp_ref (gen_events ref_events : List ADEvent) (l : List AlignStep)
    (hwf : ∀ st ∈ l, st.g = none → st.r.isSome = true) :
    ((l.map (dpPairRecord gen_events ref_events)).map (fun p => p.ref_indices)).flatten =
      (l.filterMap (fun st => st.r)).map
        (fun ri => (ref_events.getD ri default).index) := by
  induction l with
  | nil => rfl
  | cons st rest ih =>
    have hrest : ∀ s ∈ rest, s.g = none → s.r.isSome = true :=
      fun s hs => hwf s (List.mem_cons_of_mem st hs)
    cases hr : st.r with
    | none =>
      have hg : st.g ≠ none := by
        intro hg
        have := hwf st (List.mem_cons_self st rest) hg
        rw [hr] at this
        cases this
      rcases Option.ne_none_iff_exists.mp hg with ⟨gi, hgi⟩
      simp only [List.map_cons, List.flatten_cons, List.filterMap_cons, hr]
      rw [show (dpPairRecord gen_events ref_events st).ref_indices = [] from by
        simp [dpPairRecord, ← hgi, hr]]
      simpa using ih hrest
    | some ri =>
      simp only [List.map_cons, List.flatten_cons, List.filterMap_cons, hr]
      rw [show (dpPairRecord gen_events ref_events st).ref_indices =
          [(ref_events.getD ri default).index] from by
        cases hg : st.g <;> simp [dpPairRecord, hg, hr]]
      rw [List.singleton_append, ih hrest]

/-- Evaluating a list position-wise through `getD` over `range`. -/
theorem map_getD_range {β : Type} (f : ADEvent → β) (l : List ADEvent) :
    (List.range l.length).map (fun k => f (l.getD k default)) = l.map f := by
  apply List.ext_getElem (by simp)
  intro k h1 h2
  simp only [List.getElem_map, List.getElem_range, List.getD_eq_getElem?_getD]
  rw [List.getElem?_eq_getElem (by simpa using h2)]
  rfl

end BacktrackLemmas



section DPMatchLemmas

/-- `DPMatcher.match` returns `[]` as soon as either input is empty. -/
theorem dpMatch_empty (cfg : DPConfig) (gen_events ref_events : List ADEvent)
    (h : gen_events = [] ∨ ref_events = []) :
    dpMatch cfg gen_events ref_events = [] := by
  simp only [dpMatch, if_pos h]

/-- Index coverage of `DPMatcher.match` on non-empty inputs: the
concatenation of the records' generated index lists is a permutation of
the generated events' indices, and likewise on the reference side. -/
theorem dpMatch_cover (cfg : DPConfig) (gen_events ref_events : List ADEvent)
    (hg : gen_events ≠ []) (hr : ref_events ≠ []) :
    (((dpMatch cfg gen_events ref_events).map (fun p => p.gen_indices)).flatten).Perm
      (gen_events.map (fun e => e.index)) ∧
    (((dpMatch cfg gen_events ref_events).map (fun p => p.ref_indices)).flatten).Perm
      (ref_events.map (fun e => e.index)) := by
  have hcond : ¬(gen_events = [] ∨ ref_events = []) := by
    rintro (h | h)
    · exact hg h
    · exact hr h
  simp only [dpMatch, if_neg hcond]
  constructor
  · rw [flatten_dp_gen]
    simp only [dp_align, List.filterMap_reverse]
    refine ((List.reverse_perm _).map _).trans ?_
    refine ((backtrack_perm_aux _ cfg.gap_penalty_gen cfg.gap_penalty_ref _
      (gen_events.length + ref_events.length) gen_events.length ref_events.length
      le_rfl).1.map _).trans ?_
    rw [map_getD_range (fun e => e.index) gen_events]
  · rw [flatten_dp_ref]
    · simp only [dp_align, List.filterMap_reverse]
      refine ((List.reverse_perm _).map _).trans ?_
      refine ((backtrack_perm_aux _ cfg.gap_penalty_gen cfg.gap_penalty_ref _
        (gen_events.length + ref_events.length) gen_events.length ref_events.length
        le_rfl).2.map _).trans ?_
      rw [map_getD_range (fun e => e.index) ref_events]
    · intro st hst
      simp only [dp_align, List.mem_reverse] at hst
      exact backtrack_wf _ cfg.gap_penalty_gen cfg.gap_penalty_ref _
        (gen_events.length + ref_events.length) gen_events.length ref_events.length
        le_rfl st hst

end DPMatchLemmas



section ClusterPartitionLemmas

theorem firstKeys_mem_aux :
    ∀ (n : Nat) (l : List Nat), l.length ≤ n → ∀ x, (x ∈ firstKeysF n l ↔ x ∈ l) := by
  intro n
  induction n with
  | zero =>
    intro l h x
    rw [List.eq_nil_of_length_eq_zero (Nat.le_zero.mp h)]
    simp [firstKeysF]
  | succ n ih =>
    intro l h x
    cases l with
    | nil => simp [firstKeysF]
    | cons y ys =>
      rw [firstKeysF]
      by_cases hxy : x = y
      · subst hxy
        simp
      · simp only [List.mem_cons]
        have hlen : (ys.filter (fun z => decide (z ≠ y))).length ≤ n :=
          le_trans (List.length_filter_le _ ys) (Nat.succ_le_succ_iff.mp h)
        rw [ih _ hlen x]
        constructor
        · rintro (h1 | h1)
          · exact absurd h1 hxy
          · exact Or.inr (List.mem_of_mem_filter h1)
        · rintro (h1 | h1)
          · exact absurd h1 hxy
          · exact Or.inr (List.mem_filter.mpr ⟨h1, by simpa using hxy⟩)

/-- Membership in the dict-key list is membership in the value list. -/
theorem mem_firstKeys {l : List Nat} {x : Nat} : x ∈ firstKeys l ↔ x ∈ l :=
  firstKeys_mem_aux l.length l le_rfl x

/-- Grouping a list of keyed entries by its dict keys partitions it: the
concatenation of the groups is a permutation of the original list. -/
theorem partitionPerm :
    ∀ (n : Nat) (l : List (Tagged × Nat)), l.length ≤ n →
      (((firstKeysF n (l.map (fun pr => pr.2))).map
          (fun rt => l.filter (fun pr => decide (pr.2 = rt)))).flatten).Perm l := by
  intro n
  induction n with
  | zero =>
    intro l h
    rw [List.eq_nil_of_length_eq_zero (Nat.le_zero.mp h)]
    simp [firstKeysF]
  | succ n ih =>
    intro l h
    cases l with
    | nil => simp [firstKeysF]
    | cons p ps =>
      rw [List.map_cons, firstKeysF]
      have hcomm : (ps.map (fun pr => pr.2)).filter (fun z => decide (z ≠ p.2)) =
          (ps.filter (fun pr => decide (pr.2 ≠ p.2))).map (fun pr => pr.2) := by
        rw [List.filter_map]
        rfl
      rw [hcomm, List.map_cons, List.flatten_cons]
      have hhead : (p :: ps).filter (fun pr => decide (pr.2 = p.2)) =
          p :: ps.filter (fun pr => decide (pr.2 = p.2)) := by
        simp [List.filter_cons]
      have hlen : (ps.filter (fun pr => decide (pr.2 ≠ p.2))).length ≤ n :=
        le_trans (List.length_filter_le _ ps) (Nat.succ_le_succ_iff.mp h)
      have hih := ih (ps.filter (fun pr => decide (pr.2 ≠ p.2))) hlen
      have hmapeq :
          (firstKeysF n ((ps.filter (fun pr => decide (pr.2 ≠ p.2))).map
            (fun pr => pr.2))).map
              (fun rt => (p :: ps).filter (fun pr => decide (pr.2 = rt))) =
          (firstKeysF n ((ps.filter (fun pr => decide (pr.2 ≠ p.2))).map
            (fun pr => pr.2))).map
              (fun rt => (ps.filter (fun pr => decide (pr.2 ≠ p.2))).filter
                (fun pr => decide (pr.2 = rt))) := by
        refine List.map_congr_left ?_
        intro rt hrt
        have hrtne : rt ≠ p.2 := by
          have hlen2 : ((ps.filter (fun pr => decide (pr.2 ≠ p.2))).map
              (fun pr => pr.2)).length ≤ n := by
            rw [List.length_map]
            exact le_trans (List.length_filter_le _ ps) (Nat.succ_le_succ_iff.mp h)
          rcases List.mem_map.mp ((firstKeys_mem_aux n _ hlen2 rt).mp hrt)
            with ⟨pr, hpr, hpr2⟩
          have := List.mem_filter.mp hpr
          subst hpr2
          simpa using this.2
        rw [List.filter_cons]
        rw [if_neg (by simpa using fun he => hrtne he.symm)]
        rw [List.filter_filter]
        refine (List.filter_congr ?_).symm
        intro pr _
        by_cases hpr : pr.2 = rt
        · simp [hpr, hrtne]
        · simp [hpr]
      rw [hhead, hmapeq, List.cons_append]
      refine List.Perm.cons p ?_
      refine (List.Perm.append_left _ hih).trans ?_
      have hneg : ps.filter (fun pr => decide (pr.2 ≠ p.2)) =
          ps.filter (fun pr => !(decide (pr.2 = p.2))) := by
        refine List.filter_congr ?_
        intro pr _
        simp
      rw [hneg]
      exact List.filter_append_perm _ ps

/-- `partitionPerm` at the fuel `firstKeys` itself uses. -/
theorem partitionPerm_top (l : List (Tagged × Nat)) :
    (((firstKeys (l.map (fun pr => pr.2))).map
        (fun rt => l.filter (fun pr => decide (pr.2 = rt)))).flatten).Perm l := by
  have h := partitionPerm (l.map (fun pr => pr.2)).length l
    (le_of_eq (List.length_map l _).symm)
  exact h

/-- Flattening per-element singleton lists. -/
theorem flatten_singletons {α β : Type} (f : α → β) (l : List α) :
    (l.map (fun a => [f a])).flatten = l.map f := by
  induction l with
  | nil => rfl
  | cons a as ih => simp [ih]

/-- Flattening per-element empty lists. -/
theorem flatten_nils {α β : Type} (l : List α) :
    (l.map (fun _ => ([] : List β))).flatten = [] := by
  induction l with
  | nil => rfl
  | cons a as ih => simp [ih]

/-- Regrouping a flatMap under a map and flatten. -/
theorem flatten_map_flatMap {α β γ : Type} (h : α → List β) (f : β → List γ)
    (L : List α) :
    ((L.flatMap h).map f).flatten =
      (L.map (fun a => ((h a).map f).flatten)).flatten := by
  induction L with
  | nil => rfl
  | cons a as ih => simp [List.flatMap_cons, List.map_append, List.flatten_append, ih]

/-- Pointwise permutations flatten to a permutation. -/
theorem flatten_perm_pointwise {α β : Type} (L : List α) (f g : α → List β)
    (h : ∀ a ∈ L, (f a).Perm (g a)) :
    ((L.map f).flatten).Perm ((L.map g).flatten) := by
  induction L with
  | nil => exact List.Perm.refl _
  | cons a as ih =>
    simp only [List.map_cons, List.flatten_cons]
    exact (h a (List.mem_cons_self a as)).append
      (ih (fun b hb => h b (List.mem_cons_of_mem a hb)))

theorem refOnly_gen_flat (l : List ADEvent) :
    ((l.map mkRefOnly).map (fun p => p.gen_indices)).flatten = [] := by
  induction l with
  | nil => rfl
  | cons e es ih => simp [mkRefOnly, ih]

theorem refOnly_ref_flat (l : List ADEvent) :
    ((l.map mkRefOnly).map (fun p => p.ref_indices)).flatten =
      l.map (fun e => e.index) := by
  induction l with
  | nil => rfl
  | cons e es ih =>
    simp only [List.map_cons, List.flatten_cons]
    rw [ih]
    rfl

theorem genOnly_gen_flat (l : List ADEvent) :
    ((l.map mkGenOnly).map (fun p => p.gen_indices)).flatten =
      l.map (fun e => e.index) := by
  induction l with
  | nil => rfl
  | cons e es ih =>
    simp only [List.map_cons, List.flatten_cons]
    rw [ih]
    rfl

theorem genOnly_ref_flat (l : List ADEvent) :
    ((l.map mkGenOnly).map (fun p => p.ref_indices)).flatten = [] := by
  induction l with
  | nil => rfl
  | cons e es ih => simp [mkGenOnly, ih]

/-- Per-cluster index coverage: the records of one cluster carry exactly
the generated indices of the cluster's generated events and the reference
indices of its reference events. -/
theorem clusterRecords_perm (cl : List Tagged) :
    (((clusterRecords cl).map (fun p => p.gen_indices)).flatten).Perm
      ((cl.filter (fun t => t.isGen)).map (fun t => t.event.index)) ∧
    (((clusterRecords cl).map (fun p => p.ref_indices)).flatten).Perm
      ((cl.filter (fun t => !t.isGen)).map (fun t => t.event.index)) := by
  by_cases hg : (cl.filter (fun t => t.isGen)).map (fun t => t.event) = []
  · by_cases hrf : (cl.filter (fun t => !t.isGen)).map (fun t => t.event) = []
    · have hrec : clusterRecords cl = [] := by
        simp only [clusterRecords, hg, hrf]
        simp
      rw [hrec, List.map_eq_nil_iff.mp hg, List.map_eq_nil_iff.mp hrf]
      exact ⟨List.Perm.refl _, List.Perm.refl _⟩
    · have hrec : clusterRecords cl =
          ((cl.filter (fun t => !t.isGen)).map (fun t => t.event)).map mkRefOnly := by
        simp only [clusterRecords, hg]
        simp
      rw [hrec, List.map_eq_nil_iff.mp hg]
      constructor
      · rw [refOnly_gen_flat]
        simp
      · rw [refOnly_ref_flat, List.map_map]
        exact List.Perm.refl _
  · by_cases hrf : (cl.filter (fun t => !t.isGen)).map (fun t => t.event) = []
    · have hrec : clusterRecords cl =
          ((cl.filter (fun t => t.isGen)).map (fun t => t.event)).map mkGenOnly := by
        simp only [clusterRecords, hrf]
        simp [hg]
      rw [hrec, List.map_eq_nil_iff.mp hrf]
      constructor
      · rw [genOnly_gen_flat, List.map_map]
        exact List.Perm.refl _
      · rw [genOnly_ref_flat]
        simp
    · have hrec : clusterRecords cl =
          [mkClusterPair ((cl.filter (fun t => t.isGen)).map (fun t => t.event))
            ((cl.filter (fun t => !t.isGen)).map (fun t => t.event))] := by
        simp only [clusterRecords]
        simp [hg, hrf]
      rw [hrec]
      constructor
      · simp only [List.map_cons, List.map_nil, List.flatten_cons, List.flatten_nil,
          List.append_nil, mkClusterPair]
        refine ((sortS_perm startLe _).map (fun e => e.index)).trans ?_
        rw [List.map_map]
        exact List.Perm.refl _
      · simp only [List.map_cons, List.map_nil, List.flatten_cons, List.flatten_nil,
          List.append_nil, mkClusterPair]
        refine ((sortS_perm startLe _).map (fun e => e.index)).trans ?_
        rw [List.map_map]
        exact List.Perm.refl _

end ClusterPartitionLemmas



section ClusterCoverLemmas

theorem computeRoots_go_len :
    ∀ (l : List Nat) (start : UnionFind × List Nat),
      (l.foldl (fun acc i =>
        let pr := acc.1.find i
        (pr.1, acc.2 ++ [pr.2])) start).2.length = start.2.length + l.length := by
  intro l
  induction l with
  | nil => intro start; rfl
  | cons i is ih =>
    intro start
    rw [List.foldl_cons, ih]
    simp only [List.length_append, List.length_cons, List.length_nil]
    omega

/-- One root is produced per queried index. -/
theorem computeRoots_len (uf : UnionFind) (l : List Nat) :
    (computeRoots uf l).2.length = l.length := by
  rw [computeRoots, computeRoots_go_len]
  simp

theorem flatten_map_comp {α β γ : Type} (h : α → List β) (f : β → γ) (L : List α) :
    (L.map (fun a => (h a).map f)).flatten = ((L.map h).flatten).map f := by
  induction L with
  | nil => rfl
  | cons a as ih =>
    simp only [List.map_cons, List.flatten_cons, List.map_append]
    rw [ih]

theorem flatten_filter_comm {α : Type} (p : α → Bool) (L : List (List α)) :
    (L.map (fun cl => cl.filter p)).flatten = L.flatten.filter p := by
  induction L with
  | nil => rfl
  | cons a as ih =>
    simp only [List.map_cons, List.flatten_cons, List.filter_append]
    rw [ih]

theorem unified_filter_gen (g r : List ADEvent) :
    (unifiedEvents g r).filter (fun t => t.isGen) =
      g.map (fun e => { event := e, isGen := true }) := by
  simp only [unifiedEvents, List.filter_append, List.filter_map]
  rw [show ((fun t : Tagged => t.isGen) ∘ fun e => ({ event := e, isGen := true } : Tagged)) =
    (fun _ => true) from rfl]
  rw [show ((fun t : Tagged => t.isGen) ∘ fun e => ({ event := e, isGen := false } : Tagged)) =
    (fun _ => false) from rfl]
  simp

theorem unified_filter_ref (g r : List ADEvent) :
    (unifiedEvents g r).filter (fun t => !t.isGen) =
      r.map (fun e => { event := e, isGen := false }) := by
  simp only [unifiedEvents, List.filter_append, List.filter_map]
  rw [show ((fun t : Tagged => !t.isGen) ∘ fun e => ({ event := e, isGen := true } : Tagged)) =
    (fun _ => false) from rfl]
  rw [show ((fun t : Tagged => !t.isGen) ∘ fun e => ({ event := e, isGen := false } : Tagged)) =
    (fun _ => true) from rfl]
  simp

/-- Index coverage of `ClusterMatcher.match`: the concatenation of the
records' generated index lists is a permutation of the generated events'
indices, and likewise on the reference side — for every input. -/
theorem clusterMatch_cover (mo : ℚ) (g r : List ADEvent) :
    (((clusterMatch mo g r).map (fun p => p.gen_indices)).flatten).Perm
      (g.map (fun e => e.index)) ∧
    (((clusterMatch mo g r).map (fun p => p.ref_indices)).flatten).Perm
      (r.map (fun e => e.index)) := by
  by_cases hn : (unifiedEvents g r).length = 0
  · have hemp := List.eq_nil_of_length_eq_zero hn
    have hga : g = [] := by
      rcases List.append_eq_nil.mp hemp with ⟨h1, _⟩
      exact List.map_eq_nil_iff.mp h1
    have hra : r = [] := by
      rcases List.append_eq_nil.mp hemp with ⟨_, h2⟩
      exact List.map_eq_nil_iff.mp h2
    subst hga
    subst hra
    constructor <;> simp [clusterMatch, unifiedEvents]
  · simp only [clusterMatch]
    rw [if_neg hn]
    set evs := unifiedEvents g r with hevs
    set roots := (computeRoots (clusterUF mo g r) (List.range evs.length)).2 with hroots
    set withRoots := evs.zip roots with hwith
    set keys := firstKeys roots with hkeys
    set clusters := keys.map
      (fun rt => (withRoots.filter (fun pr => decide (pr.2 = rt))).map (fun pr => pr.1))
      with hclusters
    have hlen : roots.length = evs.length := by
      rw [hroots, computeRoots_len, List.length_range]
    have hkeys2 : keys = firstKeys (withRoots.map (fun pr => pr.2)) := by
      rw [hkeys, hwith, List.map_snd_zip evs roots (le_of_eq hlen)]
    have hflat : clusters.flatten.Perm evs := by
      rw [hclusters]
      rw [show (fun rt => (withRoots.filter (fun pr => decide (pr.2 = rt))).map
          (fun pr : Tagged × Nat => pr.1)) =
        (fun rt => ((fun rt2 => withRoots.filter (fun pr => decide (pr.2 = rt2))) rt).map
          (fun pr : Tagged × Nat => pr.1)) from rfl]
      rw [flatten_map_comp (fun rt => withRoots.filter (fun pr => decide (pr.2 = rt)))
        (fun pr : Tagged × Nat => pr.1) keys]
      rw [hkeys2]
      refine ((partitionPerm_top withRoots).map _).trans ?_
      rw [hwith, List.map_fst_zip evs roots (le_of_eq hlen.symm)]
    constructor
    · refine (List.Perm.flatten ((sortS_perm pairLe _).map _)).trans ?_
      rw [flatten_map_flatMap clusterRecords (fun p => p.gen_indices) clusters]
      refine (flatten_perm_pointwise clusters _ _
        (fun cl _ => (clusterRecords_perm cl).1)).trans ?_
      rw [flatten_map_comp (fun cl => cl.filter (fun t => t.isGen))
        (fun t : Tagged => t.event.index) clusters]
      rw [flatten_filter_comm]
      refine ((List.Perm.filter _ hflat).map _).trans ?_
      rw [hevs, unified_filter_gen, List.map_map]
      exact List.Perm.refl _
    · refine (List.Perm.flatten ((sortS_perm pairLe _).map _)).trans ?_
      rw [flatten_map_flatMap clusterRecords (fun p => p.ref_indices) clusters]
      refine (flatten_perm_pointwise clusters _ _
        (fun cl _ => (clusterRecords_perm cl).2)).trans ?_
      rw [flatten_map_comp (fun cl => cl.filter (fun t => !t.isGen))
        (fun t : Tagged => t.event.index) clusters]
      rw [flatten_filter_comm]
      refine ((List.Perm.filter _ hflat).map _).trans ?_
      rw [hevs, unified_filter_ref, List.map_map]
      exact List.Perm.refl _

/-- `ClusterMatcher.match` returns `[]` exactly when the combined input is
empty. -/
theorem clusterMatch_eq_nil_iff (mo : ℚ) (g r : List ADEvent) :
    clusterMatch mo g r = [] ↔ g = [] ∧ r = [] := by
  constructor
  · intro h
    have hcov := clusterMatch_cover mo g r
    rw [h] at hcov
    simp only [List.map_nil, List.flatten_nil] at hcov
    constructor
    · exact List.map_eq_nil_iff.mp (List.Perm.eq_nil hcov.1.symm)
    · exact List.map_eq_nil_iff.mp (List.Perm.eq_nil hcov.2.symm)
  · rintro ⟨h1, h2⟩
    subst h1
    subst h2
    rfl

end ClusterCoverLemmas



section DegenerateAndCoverageClaims

/-- C1 as stated is false for the Cluster matcher: with an empty generated
list and one reference event it returns a `reference_only` record, not
`[]`. -/
theorem claim_C1_counterexample :
    clusterMatch (1 / 2) [] [{ start := 0, «end» := 1, text := "x", index := 0 }] ≠ [] := by
  decide

/-- C1 (amended): the DP matcher returns `[]` whenever at least one input
is empty; the Cluster matcher returns `[]` exactly when BOTH inputs are
empty — with exactly one side empty it emits unmatched records for the
non-empty side instead of `[]`. -/
theorem claim_C1 (cfg : DPConfig) (mo : ℚ) (g r : List ADEvent) :
    (g = [] ∨ r = [] → dpMatch cfg g r = []) ∧
    (clusterMatch mo g r = [] ↔ g = [] ∧ r = []) :=
  ⟨dpMatch_empty cfg g r, clusterMatch_eq_nil_iff mo g r⟩

/-- Witness for C1 (amended) at concrete inputs. -/
theorem claim_C1_witness :
    dpMatch {} ([] : List ADEvent)
      [{ start := 0, «end» := 1, text := "x", index := 0 }] = [] ∧
    clusterMatch 1 ([] : List ADEvent) [] = [] := by
  have h := claim_C1 {} 1 ([] : List ADEvent)
    [{ start := 0, «end» := 1, text := "x", index := 0 }]
  have h2 := claim_C1 {} 1 ([] : List ADEvent) []
  exact ⟨h.1 (Or.inl rfl), h2.2.mpr ⟨rfl, rfl⟩⟩

/-- C3 as stated is false for the DP matcher: with one generated event and
an empty reference list it returns `[]`, so generated index `0` is
omitted. -/
theorem claim_C3_counterexample :
    ¬((((dpMatch {} [{ start := 0, «end» := 1, text := "x", index := 0 }] []).map
        (fun p => p.gen_indices)).flatten).Perm
      ((List.range 1).map (fun k => (k : Int)))) := by
  decide

/-- C3 (amended): with each event's `index` equal to its position in its
origin sequence, the multiset union of `gen_indices` over the Cluster
matcher's records is exactly the full generated index range (no
duplication, no omission) and likewise for `ref_indices`, for every input;
the DP matcher satisfies the same provided both inputs are non-empty (with
exactly one input empty it returns `[]` and omits the non-empty side's
indices, see the counterexample). -/
theorem claim_C3 (cfg : DPConfig) (mo : ℚ) (g r : List ADEvent)
    (hgi : g.map (fun e => e.index) = (List.range g.length).map (fun k => (k : Int)))
    (hri : r.map (fun e => e.index) = (List.range r.length).map (fun k => (k : Int))) :
    ((((clusterMatch mo g r).map (fun p => p.gen_indices)).flatten).Perm
        ((List.range g.length).map (fun k => (k : Int))) ∧
      (((clusterMatch mo g r).map (fun p => p.ref_indices)).flatten).Perm
        ((List.range r.length).map (fun k => (k : Int)))) ∧
    (g ≠ [] → r ≠ [] →
      (((dpMatch cfg g r).map (fun p => p.gen_indices)).flatten).Perm
          ((List.range g.length).map (fun k => (k : Int))) ∧
        (((dpMatch cfg g r).map (fun p => p.ref_indices)).flatten).Perm
          ((List.range r.length).map (fun k => (k : Int)))) := by
  have hc := clusterMatch_cover mo g r
  rw [hgi, hri] at hc
  refine ⟨hc, fun hg hr => ?_⟩
  have hd := dpMatch_cover cfg g r hg hr
  rw [hgi, hri] at hd
  exact hd

/-- Witness for C3 (amended) at one generated and one reference event. -/
theorem claim_C3_witness :
    (((clusterMatch 1 [{ start := 0, «end» := 2, text := "x", index := 0 }]
          [{ start := 1, «end» := 3, text := "y", index := 0 }]).map
        (fun p => p.gen_indices)).flatten).Perm
      ((List.range 1).map (fun k => (k : Int))) ∧
    (((dpMatch {} [{ start := 0, «end» := 2, text := "x", index := 0 }]
          [{ start := 1, «end» := 3, text := "y", index := 0 }]).map
        (fun p => p.ref_indices)).flatten).Perm
      ((List.range 1).map (fun k => (k : Int))) := by
  have h := claim_C3 {} 1 [{ start := 0, «end» := 2, text := "x", index := 0 }]
    [{ start := 1, «end» := 3, text := "y", index := 0 }] (by decide) (by decide)
  exact ⟨h.1.1, (h.2 (by decide) (by decide)).2⟩

end DegenerateAndCoverageClaims



section UnionFindInv

/-- Out-of-range parent lookups are fixpoints. -/
theorem pget_out {p : List Nat} {x : Nat} (h : p.length ≤ x) : pget p x = x := by
  rw [pget, List.getD_eq_getElem?_getD, List.getElem?_eq_none (by omega)]
  rfl

theorem pget_set_self {p : List Nat} {x v : Nat} (h : x < p.length) :
    pget (p.set x v) x = v := by
  rw [pget, List.getD_eq_getElem?_getD, List.getElem?_set]
  simp [h]

theorem pget_set_ne {p : List Nat} {x v z : Nat} (h : x ≠ z) :
    pget (p.set x v) z = pget p z := by
  rw [pget, pget, List.getD_eq_getElem?_getD, List.getD_eq_getElem?_getD,
    List.getElem?_set, if_neg h]

theorem rkget_set_self {rk : List Nat} {a v : Nat} (h : a < rk.length) :
    (rk.set a v).getD a 0 = v := by
  rw [List.getD_eq_getElem?_getD, List.getElem?_set]
  simp [h]

theorem rkget_set_ne {rk : List Nat} {a v z : Nat} (h : a ≠ z) :
    (rk.set a v).getD z 0 = rk.getD z 0 := by
  rw [List.getD_eq_getElem?_getD, List.getD_eq_getElem?_getD,
    List.getElem?_set, if_neg h]

/-- The invariant the matcher's union-find maintains: parents stay in
range and ranks strictly increase along non-trivial parent links. -/
def Inv (p rk : List Nat) : Prop :=
  rk.length = p.length ∧
  ∀ x, x < p.length →
    pget p x < p.length ∧ (pget p x ≠ x → rk.getD x 0 < rk.getD (pget p x) 0)

/-- Termination measure for parent chains: how many nodes have rank at
least the rank of `x`. -/
def M (p rk : List Nat) (x : Nat) : Nat :=
  ((Finset.range p.length).filter (fun y => rk.getD x 0 ≤ rk.getD y 0)).card

theorem M_pos {p rk : List Nat} {x : Nat} (h : x < p.length) : 0 < M p rk x := by
  refine Finset.card_pos.mpr ⟨x, ?_⟩
  simp [Finset.mem_filter, Finset.mem_range, h]

theorem M_le (p rk : List Nat) (x : Nat) : M p rk x ≤ p.length := by
  refine le_trans (Finset.card_le_card (Finset.filter_subset _ _)) ?_
  simp

/-- One parent step strictly decreases the measure. -/
theorem M_step {p rk : List Nat} (hinv : Inv p rk) {x : Nat} (hx : x < p.length)
    (hne : pget p x ≠ x) : M p rk (pget p x) < M p rk x := by
  have hrk := (hinv.2 x hx).2 hne
  have hsub : (Finset.range p.length).filter
      (fun y => rk.getD (pget p x) 0 ≤ rk.getD y 0) ⊆
      ((Finset.range p.length).filter (fun y => rk.getD x 0 ≤ rk.getD y 0)).erase x := by
    intro y hy
    rcases Finset.mem_filter.mp hy with ⟨hy1, hy2⟩
    refine Finset.mem_erase.mpr ⟨?_, Finset.mem_filter.mpr ⟨hy1, le_trans (le_of_lt hrk) hy2⟩⟩
    intro he
    rw [he] at hy2
    exact absurd hy2 (not_le.mpr hrk)
  calc M p rk (pget p x) ≤ _ := Finset.card_le_card hsub
    _ < M p rk x := Finset.card_erase_lt_of_mem
        (by simp [Finset.mem_filter, Finset.mem_range, hx])

theorem rootAux_fix {p : List Nat} {x : Nat} (h : pget p x = x) :
    ∀ f, rootAux p f x = x := by
  intro f
  cases f with
  | zero => rfl
  | succ f => simp [rootAux, h]

theorem rootAux_step {p : List Nat} {x : Nat} (h : pget p x ≠ x) (f : Nat) :
    rootAux p (f + 1) x = rootAux p f (pget p x) := by
  simp [rootAux, h]

/-- With fuel at least the measure, the chain reaches a fixpoint. -/
theorem rootAux_isRoot {p rk : List Nat} (hinv : Inv p rk) :
    ∀ f x, x < p.length → M p rk x ≤ f →
      pget p (rootAux p f x) = rootAux p f x := by
  intro f
  induction f with
  | zero =>
    intro x hx hm
    exact absurd (lt_of_lt_of_le (M_pos hx) hm) (lt_irrefl 0)
  | succ f ih =>
    intro x hx hm
    by_cases hfix : pget p x = x
    · rw [rootAux_fix hfix]
      exact hfix
    · rw [rootAux_step hfix]
      exact ih (pget p x) ((hinv.2 x hx).1)
        (Nat.lt_succ_iff.mp (lt_of_lt_of_le (M_step hinv hx hfix) hm))

/-- Once a fixpoint is reached, extra fuel changes nothing. -/
theorem rootAux_stable {p : List Nat} :
    ∀ f x, pget p (rootAux p f x) = rootAux p f x →
      ∀ k, rootAux p (f + k) x = rootAux p f x := by
  intro f
  induction f with
  | zero =>
    intro x hfix k
    rw [Nat.zero_add]
    exact rootAux_fix hfix k
  | succ f ih =>
    intro x hfix k
    by_cases h : pget p x = x
    · rw [rootAux_fix h, rootAux_fix h]
    · rw [show f + 1 + k = (f + k) + 1 from by omega, rootAux_step h, rootAux_step h]
      rw [rootAux_step h] at hfix
      exact ih (pget p x) hfix k

theorem rootD_isRoot {p rk : List Nat} (hinv : Inv p rk) {x : Nat} (hx : x < p.length) :
    pget p (rootD p x) = rootD p x :=
  rootAux_isRoot hinv p.length x hx (M_le p rk x)

/-- Any sufficient fuel computes `rootD`. -/
theorem rootAux_eq_rootD {p rk : List Nat} (hinv : Inv p rk) {x : Nat}
    (hx : x < p.length) {f : Nat} (hf : M p rk x ≤ f) :
    rootAux p f x = rootD p x := by
  have hroot_f := rootAux_isRoot hinv f x hx hf
  have hroot_n := rootAux_isRoot hinv p.length x hx (M_le p rk x)
  rcases le_total f p.length with h | h
  · rw [rootD, show p.length = f + (p.length - f) from by omega,
      rootAux_stable f x hroot_f]
  · rw [show f = p.length + (f - p.length) from by omega,
      rootAux_stable p.length x hroot_n]
    rfl

theorem rootD_of_isRoot {p : List Nat} {x : Nat} (h : pget p x = x) :
    rootD p x = x :=
  rootAux_fix h p.length

theorem rootD_out {p : List Nat} {x : Nat} (h : p.length ≤ x) : rootD p x = x :=
  rootD_of_isRoot (pget_out h)

theorem rootD_step {p rk : List Nat} (hinv : Inv p rk) {x : Nat}
    (hx : x < p.length) (hne : pget p x ≠ x) :
    rootD p x = rootD p (pget p x) := by
  have hn : p.length = (p.length - 1) + 1 := by omega
  rw [rootD, hn, rootAux_step hne]
  refine rootAux_eq_rootD hinv ((hinv.2 x hx).1) ?_
  have h1 := M_step hinv hx hne
  have h2 := M_le p rk x
  omega

theorem rootD_lt {p rk : List Nat} (hinv : Inv p rk) :
    ∀ k x, x < p.length → M p rk x ≤ k → rootD p x < p.length := by
  intro k
  induction k with
  | zero =>
    intro x hx hm
    exact absurd (lt_of_lt_of_le (M_pos hx) hm) (lt_irrefl 0)
  | succ k ih =>
    intro x hx hm
    by_cases hfix : pget p x = x
    · rw [rootD_of_isRoot hfix]
      exact hx
    · rw [rootD_step hinv hx hfix]
      exact ih (pget p x) ((hinv.2 x hx).1)
        (Nat.lt_succ_iff.mp (lt_of_lt_of_le (M_step hinv hx hfix) hm))

theorem rank_lt_rootD {p rk : List Nat} (hinv : Inv p rk) :
    ∀ k x, x < p.length → M p rk x ≤ k → pget p x ≠ x →
      rk.getD x 0 < rk.getD (rootD p x) 0 := by
  intro k
  induction k with
  | zero =>
    intro x hx hm
    exact absurd (lt_of_lt_of_le (M_pos hx) hm) (lt_irrefl 0)
  | succ k ih =>
    intro x hx hm hne
    have hstep := (hinv.2 x hx).2 hne
    by_cases hfix : pget p (pget p x) = pget p x
    · rw [rootD_step hinv hx hne, rootD_of_isRoot hfix]
      exact hstep
    · rw [rootD_step hinv hx hne]
      refine lt_trans hstep (ih (pget p x) ((hinv.2 x hx).1)
        (Nat.lt_succ_iff.mp (lt_of_lt_of_le (M_step hinv hx hne) hm)) hfix)

/-- A node whose semantic root is itself is a parent fixpoint. -/
theorem isRoot_of_rootD_self {p rk : List Nat} (hinv : Inv p rk) {x : Nat}
    (hx : x < p.length) (h : rootD p x = x) : pget p x = x := by
  by_contra hne
  have := rank_lt_rootD hinv (M p rk x) x hx le_rfl hne
  rw [h] at this
  exact absurd this (lt_irrefl _)

end UnionFindInv



section FindSpec

/-- Compressing one node to point at its root preserves the invariant and
every node's semantic root. -/
theorem set_root_spec {p rk : List Nat} (hinv : Inv p rk) {x : Nat}
    (hx : x < p.length) (hne : pget p x ≠ x) :
    Inv (p.set x (rootD p x)) rk ∧
    (p.set x (rootD p x)).length = p.length ∧
    ∀ z, rootD (p.set x (rootD p x)) z = rootD p z := by
  have hrlt : rootD p x < p.length := rootD_lt hinv (M p rk x) x hx le_rfl
  have hrroot : pget p (rootD p x) = rootD p x := rootD_isRoot hinv hx
  have hrkx : rk.getD x 0 < rk.getD (rootD p x) 0 :=
    rank_lt_rootD hinv (M p rk x) x hx le_rfl hne
  have hrne : rootD p x ≠ x := by
    intro he
    rw [he] at hrkx
    exact absurd hrkx (lt_irrefl _)
  have hlen : (p.set x (rootD p x)).length = p.length := List.length_set p x _
  have hget : ∀ z, z ≠ x → pget (p.set x (rootD p x)) z = pget p z :=
    fun z hz => pget_set_ne (Ne.symm hz)
  have hgetx : pget (p.set x (rootD p x)) x = rootD p x := pget_set_self hx
  have hinv2 : Inv (p.set x (rootD p x)) rk := by
    refine ⟨by rw [hlen]; exact hinv.1, ?_⟩
    intro z hz
    rw [hlen] at hz
    by_cases hzx : z = x
    · subst hzx
      rw [hgetx, hlen]
      exact ⟨hrlt, fun _ => hrkx⟩
    · rw [hget z hzx, hlen]
      exact hinv.2 z hz
  refine ⟨hinv2, hlen, ?_⟩
  have main : ∀ k z, z < p.length → M p rk z ≤ k →
      rootD (p.set x (rootD p x)) z = rootD p z := by
    intro k
    induction k with
    | zero =>
      intro z hz hm
      exact absurd (lt_of_lt_of_le (M_pos hz) hm) (lt_irrefl 0)
    | succ k ih =>
      intro z hz hm
      by_cases hzx : z = x
      · subst hzx
        rw [rootD_step hinv2 (by rw [hlen]; exact hz)
          (by rw [hgetx]; exact hrne), hgetx]
        exact rootD_of_isRoot (by rw [hget _ hrne]; exact hrroot)
      · by_cases hfix : pget p z = z
        · rw [rootD_of_isRoot (by rw [hget z hzx]; exact hfix), rootD_of_isRoot hfix]
        · rw [rootD_step hinv2 (by rw [hlen]; exact hz)
            (by rw [hget z hzx]; exact hfix), hget z hzx,
            rootD_step hinv hz hfix]
          exact ih (pget p z) ((hinv.2 z hz).1)
            (Nat.lt_succ_iff.mp (lt_of_lt_of_le (M_step hinv hz hfix) hm))
  intro z
  by_cases hz : z < p.length
  · exact main (M p rk z) z hz le_rfl
  · rw [rootD_out (by rw [hlen]; exact not_lt.mp hz), rootD_out (not_lt.mp hz)]

/-- `find` with path compression: the returned root is the semantic root,
and the compressed table keeps the invariant, the length and every node's
root. -/
theorem findAux_spec {p rk : List Nat} (hinv : Inv p rk) :
    ∀ f x, x < p.length → M p rk x ≤ f →
      (findAux f p x).2 = rootD p x ∧
      (findAux f p x).1.length = p.length ∧
      Inv (findAux f p x).1 rk ∧
      ∀ z, rootD (findAux f p x).1 z = rootD p z := by
  intro f
  induction f with
  | zero =>
    intro x hx hm
    exact absurd (lt_of_lt_of_le (M_pos hx) hm) (lt_irrefl 0)
  | succ f ih =>
    intro x hx hm
    by_cases hfix : pget p x = x
    · rw [show findAux (f + 1) p x = (p, x) from by simp [findAux, hfix]]
      exact ⟨(rootD_of_isRoot hfix).symm, rfl, hinv, fun z => rfl⟩
    · have hpx := (hinv.2 x hx).1
      have hmpx : M p rk (pget p x) ≤ f :=
        Nat.lt_succ_iff.mp (lt_of_lt_of_le (M_step hinv hx hfix) hm)
      obtain ⟨hr2, hlen2, hinv2, hpres2⟩ := ih (pget p x) hpx hmpx
      rw [show findAux (f + 1) p x =
          ((findAux f p (pget p x)).1.set x (findAux f p (pget p x)).2,
            (findAux f p (pget p x)).2) from by simp [findAux, hfix]]
      have hrval : (findAux f p (pget p x)).2 = rootD p x := by
        rw [hr2]
        exact (rootD_step hinv hx hfix).symm
      have hrootp2x : rootD (findAux f p (pget p x)).1 x = (findAux f p (pget p x)).2 := by
        rw [hpres2 x]
        exact hrval.symm
      have hxlen2 : x < (findAux f p (pget p x)).1.length := by
        rw [hlen2]
        exact hx
      have hne2 : pget (findAux f p (pget p x)).1 x ≠ x := by
        intro he
        have h1 : rootD (findAux f p (pget p x)).1 x = x := rootD_of_isRoot he
        have h2 : (findAux f p (pget p x)).2 = x := by rw [← hrootp2x, h1]
        have h3 := rank_lt_rootD hinv (M p rk x) x hx le_rfl hfix
        rw [← hrval, h2] at h3
        exact absurd h3 (lt_irrefl _)
      have hsetspec := set_root_spec hinv2 hxlen2 hne2
      rw [hrootp2x] at hsetspec
      obtain ⟨hinv3, hlen3, hpres3⟩ := hsetspec
      refine ⟨hrval, ?_, hinv3, ?_⟩
      · show ((findAux f p (pget p x)).1.set x (findAux f p (pget p x)).2).length = p.length
        rw [hlen3, hlen2]
      · intro z
        show rootD ((findAux f p (pget p x)).1.set x (findAux f p (pget p x)).2) z = rootD p z
        rw [hpres3 z, hpres2 z]

/-- `UnionFind.find` specification. -/
theorem find_spec {uf : UnionFind} (hinv : Inv uf.parent uf.rank) {x : Nat}
    (hx : x < uf.parent.length) :
    (uf.find x).2 = rootD uf.parent x ∧
    (uf.find x).1.parent.length = uf.parent.length ∧
    (uf.find x).1.rank = uf.rank ∧
    Inv (uf.find x).1.parent (uf.find x).1.rank ∧
    ∀ z, rootD (uf.find x).1.parent z = rootD uf.parent z := by
  have h := findAux_spec hinv uf.parent.length x hx (M_le _ uf.rank _)
  exact ⟨h.1, h.2.1, rfl, h.2.2.1, h.2.2.2⟩

end FindSpec



section UnionSpec

/-- Attaching root `b` below root `a` (with `rank b ≤ rank a`, incrementing
`rank a` on ties) keeps the invariant and redirects exactly the class of
`b` to `a`. -/
theorem link_spec {p rk : List Nat} (hinv : Inv p rk) {a b : Nat}
    (ha : a < p.length) (hb : b < p.length)
    (hra : pget p a = a) (hrb : pget p b = b) (hab : a ≠ b)
    (hrkle : rk.getD b 0 ≤ rk.getD a 0) :
    Inv (p.set b a)
      (if rk.getD a 0 = rk.getD b 0 then rk.set a (rk.getD a 0 + 1) else rk) ∧
    (p.set b a).length = p.length ∧
    ∀ z, rootD (p.set b a) z = if rootD p z = b then a else rootD p z := by
  have halen : a < rk.length := by rw [hinv.1]; exact ha
  have hrk_b : (if rk.getD a 0 = rk.getD b 0
      then rk.set a (rk.getD a 0 + 1) else rk).getD b 0 = rk.getD b 0 := by
    split
    · exact rkget_set_ne hab
    · rfl
  have hrk_ne : ∀ z, z ≠ a → (if rk.getD a 0 = rk.getD b 0
      then rk.set a (rk.getD a 0 + 1) else rk).getD z 0 = rk.getD z 0 := by
    intro z hz
    split
    · exact rkget_set_ne (Ne.symm hz)
    · rfl
  have hrk_ge : ∀ z, rk.getD z 0 ≤ (if rk.getD a 0 = rk.getD b 0
      then rk.set a (rk.getD a 0 + 1) else rk).getD z 0 := by
    intro z
    by_cases hz : z = a
    · subst hz
      split
      · rw [rkget_set_self halen]
        omega
      · exact le_rfl
    · rw [hrk_ne z hz]
  have hrk_balt : (if rk.getD a 0 = rk.getD b 0
      then rk.set a (rk.getD a 0 + 1) else rk).getD b 0 <
      (if rk.getD a 0 = rk.getD b 0
      then rk.set a (rk.getD a 0 + 1) else rk).getD a 0 := by
    rw [hrk_b]
    by_cases heq : rk.getD a 0 = rk.getD b 0
    · rw [if_pos heq, rkget_set_self halen]
      omega
    · rw [if_neg heq]
      omega
  have hlen : (p.set b a).length = p.length := List.length_set p b a
  have hget : ∀ z, z ≠ b → pget (p.set b a) z = pget p z :=
    fun z hz => pget_set_ne (Ne.symm hz)
  have hgetb : pget (p.set b a) b = a := pget_set_self hb
  have hinv2 : Inv (p.set b a)
      (if rk.getD a 0 = rk.getD b 0 then rk.set a (rk.getD a 0 + 1) else rk) := by
    constructor
    · rw [hlen]
      split
      · rw [List.length_set]
        exact hinv.1
      · exact hinv.1
    · intro z hz
      rw [hlen] at hz
      by_cases hzb : z = b
      · subst hzb
        rw [hgetb, hlen]
        exact ⟨ha, fun _ => hrk_balt⟩
      · rw [hget z hzb, hlen]
        refine ⟨(hinv.2 z hz).1, ?_⟩
        intro hne
        have hza : z ≠ a := by
          intro he
          subst he
          exact hne hra
        rw [hrk_ne z hza]
        exact lt_of_lt_of_le ((hinv.2 z hz).2 hne) (hrk_ge (pget p z))
  refine ⟨hinv2, hlen, ?_⟩
  have main : ∀ k z, z < p.length → M p rk z ≤ k →
      rootD (p.set b a) z = if rootD p z = b then a else rootD p z := by
    intro k
    induction k with
    | zero =>
      intro z hz hm
      exact absurd (lt_of_lt_of_le (M_pos hz) hm) (lt_irrefl 0)
    | succ k ih =>
      intro z hz hm
      by_cases hzb : z = b
      · subst hzb
        rw [rootD_of_isRoot hrb, if_pos rfl]
        rw [rootD_step hinv2 (by rw [hlen]; exact hz)
          (by rw [hgetb]; exact hab), hgetb]
        exact rootD_of_isRoot (by rw [hget a hab]; exact hra)
      · by_cases hfix : pget p z = z
        · rw [rootD_of_isRoot hfix, rootD_of_isRoot (by rw [hget z hzb]; exact hfix),
            if_neg hzb]
        · rw [rootD_step hinv2 (by rw [hlen]; exact hz)
            (by rw [hget z hzb]; exact hfix), hget z hzb,
            rootD_step hinv hz hfix]
          exact ih (pget p z) ((hinv.2 z hz).1)
            (Nat.lt_succ_iff.mp (lt_of_lt_of_le (M_step hinv hz hfix) hm))
  intro z
  by_cases hz : z < p.length
  · exact main (M p rk z) z hz le_rfl
  · rw [rootD_out (by rw [hlen]; exact not_lt.mp hz), rootD_out (not_lt.mp hz)]
    rw [if_neg (show z ≠ b from fun he => hz (by rw [he]; exact hb))]

end UnionSpec



section UnionSpec2

/-- The rank-comparison linking step of `UnionFind.union` on two distinct
roots: invariant preserved, existing equivalences preserved, and the two
roots merged. -/
theorem union_core {q rk2 : List Nat} (hinv : Inv q rk2) {px py : Nat}
    (hpx : px < q.length) (hpy : py < q.length)
    (hrpx : pget q px = px) (hrpy : pget q py = py) (hne : px ≠ py) :
    Inv (q.set (if rk2.getD px 0 < rk2.getD py 0 then px else py)
          (if rk2.getD px 0 < rk2.getD py 0 then py else px))
      (if rk2.getD (if rk2.getD px 0 < rk2.getD py 0 then py else px) 0 =
          rk2.getD (if rk2.getD px 0 < rk2.getD py 0 then px else py) 0
        then rk2.set (if rk2.getD px 0 < rk2.getD py 0 then py else px)
          (rk2.getD (if rk2.getD px 0 < rk2.getD py 0 then py else px) 0 + 1)
        else rk2) ∧
    (q.set (if rk2.getD px 0 < rk2.getD py 0 then px else py)
      (if rk2.getD px 0 < rk2.getD py 0 then py else px)).length = q.length ∧
    (∀ z w, rootD q z = rootD q w →
      rootD (q.set (if rk2.getD px 0 < rk2.getD py 0 then px else py)
          (if rk2.getD px 0 < rk2.getD py 0 then py else px)) z =
        rootD (q.set (if rk2.getD px 0 < rk2.getD py 0 then px else py)
          (if rk2.getD px 0 < rk2.getD py 0 then py else px)) w) ∧
    rootD (q.set (if rk2.getD px 0 < rk2.getD py 0 then px else py)
        (if rk2.getD px 0 < rk2.getD py 0 then py else px)) px =
      rootD (q.set (if rk2.getD px 0 < rk2.getD py 0 then px else py)
        (if rk2.getD px 0 < rk2.getD py 0 then py else px)) py := by
  by_cases hcmp : rk2.getD px 0 < rk2.getD py 0
  · simp only [if_pos hcmp]
    obtain ⟨hinv3, hlen3, hmap⟩ :=
      link_spec hinv hpy hpx hrpy hrpx (Ne.symm hne) (le_of_lt hcmp)
    refine ⟨hinv3, hlen3, fun z w h => by rw [hmap z, hmap w, h], ?_⟩
    rw [hmap px, hmap py, rootD_of_isRoot hrpx, rootD_of_isRoot hrpy,
      if_pos rfl, if_neg (Ne.symm hne)]
  · simp only [if_neg hcmp]
    obtain ⟨hinv3, hlen3, hmap⟩ :=
      link_spec hinv hpx hpy hrpx hrpy hne (not_lt.mp hcmp)
    refine ⟨hinv3, hlen3, fun z w h => by rw [hmap z, hmap w, h], ?_⟩
    rw [hmap px, hmap py, rootD_of_isRoot hrpx, rootD_of_isRoot hrpy,
      if_pos rfl, if_neg hne]

/-- `UnionFind.union` specification: invariant and length preserved,
previously equal roots stay equal, and the classes of `x` and `y` are
merged. -/
theorem union_spec {uf : UnionFind} (hinv : Inv uf.parent uf.rank) {x y : Nat}
    (hx : x < uf.parent.length) (hy : y < uf.parent.length) :
    Inv (uf.union x y).parent (uf.union x y).rank ∧
    (uf.union x y).parent.length = uf.parent.length ∧
    (∀ z w, rootD uf.parent z = rootD uf.parent w →
      rootD (uf.union x y).parent z = rootD (uf.union x y).parent w) ∧
    rootD (uf.union x y).parent x = rootD (uf.union x y).parent y := by
  obtain ⟨hfx2, hfxlen, hfxrk, hfxinv, hfxpres⟩ := find_spec hinv hx
  have hy1 : y < (uf.find x).1.parent.length := by rw [hfxlen]; exact hy
  obtain ⟨hfy2, hfylen, hfyrk, hfyinv, hfypres⟩ := find_spec hfxinv hy1
  have hpxval : (uf.find x).2 = rootD uf.parent x := hfx2
  have hpyval : ((uf.find x).1.find y).2 = rootD uf.parent y := by
    rw [hfy2, hfxpres y]
  have hpres2 : ∀ z, rootD ((uf.find x).1.find y).1.parent z = rootD uf.parent z :=
    fun z => (hfypres z).trans (hfxpres z)
  have hlen2 : ((uf.find x).1.find y).1.parent.length = uf.parent.length :=
    hfylen.trans hfxlen
  have hidemx : rootD uf.parent (rootD uf.parent x) = rootD uf.parent x :=
    rootD_of_isRoot (rootD_isRoot hinv hx)
  have hidemy : rootD uf.parent (rootD uf.parent y) = rootD uf.parent y :=
    rootD_of_isRoot (rootD_isRoot hinv hy)
  have hrtx : rootD uf.parent x < uf.parent.length :=
    rootD_lt hinv (M uf.parent uf.rank x) x hx le_rfl
  have hrty : rootD uf.parent y < uf.parent.length :=
    rootD_lt hinv (M uf.parent uf.rank y) y hy le_rfl
  have hpx2 : (uf.find x).2 < ((uf.find x).1.find y).1.parent.length := by
    rw [hlen2, hpxval]
    exact hrtx
  have hpy2 : ((uf.find x).1.find y).2 < ((uf.find x).1.find y).1.parent.length := by
    rw [hlen2, hpyval]
    exact hrty
  have hrx2 : pget ((uf.find x).1.find y).1.parent (uf.find x).2 = (uf.find x).2 := by
    refine isRoot_of_rootD_self hfyinv hpx2 ?_
    rw [hpres2, hpxval, hidemx]
  have hry2 : pget ((uf.find x).1.find y).1.parent ((uf.find x).1.find y).2 =
      ((uf.find x).1.find y).2 := by
    refine isRoot_of_rootD_self hfyinv hpy2 ?_
    rw [hpres2, hpyval, hidemy]
  simp only [UnionFind.union]
  by_cases hpq : (uf.find x).2 = ((uf.find x).1.find y).2
  · rw [if_pos hpq]
    refine ⟨hfyinv, hlen2, fun z w h => by rw [hpres2 z, hpres2 w, h], ?_⟩
    rw [hpres2 x, hpres2 y, ← hpxval, ← hpyval, hpq]
  · rw [if_neg hpq]
    obtain ⟨hinvc, hlenc, hmapc, hconn⟩ := union_core hfyinv hpx2 hpy2 hrx2 hry2 hpq
    refine ⟨hinvc, hlenc.trans hlen2, ?_, ?_⟩
    · intro z w h
      exact hmapc z w (by rw [hpres2 z, hpres2 w, h])
    · have h1 := hmapc x (uf.find x).2 (by rw [hpres2 x, hpres2 _, hpxval, hidemx])
      have h2 := hmapc y ((uf.find x).1.find y).2
        (by rw [hpres2 y, hpres2 _, hpyval, hidemy])
      rw [h1, h2]
      exact hconn

end UnionSpec2



section ClusterUFSpec

theorem init_inv (n : Nat) :
    Inv (UnionFind.init n).parent (UnionFind.init n).rank := by
  constructor
  · simp [UnionFind.init]
  · intro x hx
    simp only [UnionFind.init] at hx ⊢
    rw [List.length_range] at hx
    have hfix : pget (List.range n) x = x := by
      rw [pget, List.getD_eq_getElem?_getD, List.getElem?_range hx]
      rfl
    rw [hfix]
    exact ⟨by rw [List.length_range]; exact hx, fun h => absurd rfl h⟩

theorem addEdges_spec (evs : List Tagged) (mo : ℚ) :
    ∀ (l : List (Nat × Nat)) (uf : UnionFind),
      Inv uf.parent uf.rank →
      (∀ pr ∈ l, pr.1 < uf.parent.length ∧ pr.2 < uf.parent.length) →
      Inv (addEdges evs mo uf l).parent (addEdges evs mo uf l).rank ∧
      (addEdges evs mo uf l).parent.length = uf.parent.length ∧
      (∀ z w, rootD uf.parent z = rootD uf.parent w →
        rootD (addEdges evs mo uf l).parent z =
          rootD (addEdges evs mo uf l).parent w) ∧
      (∀ pr ∈ l,
        (evs.getD pr.1 default).event.overlaps_with (evs.getD pr.2 default).event
          mo = true →
        rootD (addEdges evs mo uf l).parent pr.1 =
          rootD (addEdges evs mo uf l).parent pr.2) := by
  intro l
  induction l with
  | nil =>
    intro uf hinv _
    exact ⟨hinv, rfl, fun z w h => h, fun pr hpr => absurd hpr (List.not_mem_nil pr)⟩
  | cons e es ih =>
    intro uf hinv hb
    have hstep : addEdges evs mo uf (e :: es) =
        addEdges evs mo
          (if (evs.getD e.1 default).event.overlaps_with (evs.getD e.2 default).event mo
            then uf.union e.1 e.2 else uf) es := rfl
    have hbe := hb e (List.mem_cons_self e es)
    by_cases hov : (evs.getD e.1 default).event.overlaps_with
        (evs.getD e.2 default).event mo = true
    · obtain ⟨huinv, hulen, humap, huconn⟩ := union_spec hinv hbe.1 hbe.2
      have hbtail : ∀ pr ∈ es, pr.1 < (uf.union e.1 e.2).parent.length ∧
          pr.2 < (uf.union e.1 e.2).parent.length := by
        intro pr hpr
        rw [hulen]
        exact hb pr (List.mem_cons_of_mem e hpr)
      obtain ⟨hrinv, hrlen, hrmap, hrconn⟩ := ih (uf.union e.1 e.2) huinv hbtail
      rw [hstep, if_pos hov]
      refine ⟨hrinv, hrlen.trans hulen, ?_, ?_⟩
      · intro z w h
        exact hrmap z w (humap z w h)
      · intro pr hpr hovpr
        rcases List.mem_cons.mp hpr with h1 | h1
        · rw [h1]
          exact hrmap e.1 e.2 huconn
        · exact hrconn pr h1 hovpr
    · have hbtail : ∀ pr ∈ es, pr.1 < uf.parent.length ∧ pr.2 < uf.parent.length :=
        fun pr hpr => hb pr (List.mem_cons_of_mem e hpr)
      obtain ⟨hrinv, hrlen, hrmap, hrconn⟩ := ih uf hinv hbtail
      rw [hstep, if_neg hov]
      refine ⟨hrinv, hrlen, hrmap, ?_⟩
      intro pr hpr hovpr
      rcases List.mem_cons.mp hpr with h1 | h1
      · rw [h1] at hovpr
        exact absurd hovpr hov
      · exact hrconn pr h1 hovpr

theorem pairsBelow_mem {n i j : Nat} (hij : i < j) (hj : j < n) :
    (i, j) ∈ pairsBelow n := by
  simp only [pairsBelow, List.mem_flatMap, List.mem_map]
  refine ⟨i, List.mem_range.mpr (lt_trans hij hj), j, ?_, rfl⟩
  rw [List.mem_range']
  exact ⟨j - (i + 1), by omega, by omega⟩

theorem pairsBelow_bound {n : Nat} {pr : Nat × Nat} (h : pr ∈ pairsBelow n) :
    pr.1 < n ∧ pr.2 < n := by
  simp only [pairsBelow, List.mem_flatMap, List.mem_map] at h
  rcases h with ⟨i, hi, j, hj, rfl⟩
  rw [List.mem_range] at hi
  rw [List.mem_range'] at hj
  rcases hj with ⟨k, hk, hkeq⟩
  exact ⟨hi, by omega⟩

theorem overlaps_with_comm (a b : ADEvent) (m : ℚ) :
    a.overlaps_with b m = b.overlaps_with a m := by
  simp only [ADEvent.overlaps_with]
  rw [min_comm a.«end» b.«end», max_comm a.start b.start]

theorem computeRoots_go_sem :
    ∀ (l : List Nat) (uf : UnionFind) (acc : List Nat),
      Inv uf.parent uf.rank → (∀ i ∈ l, i < uf.parent.length) →
      (l.foldl (fun acc2 i =>
        let pr := acc2.1.find i
        (pr.1, acc2.2 ++ [pr.2])) (uf, acc)).2 =
        acc ++ l.map (rootD uf.parent) := by
  intro l
  induction l with
  | nil =>
    intro uf acc _ _
    simp
  | cons i is ih =>
    intro uf acc hinv hb
    rw [List.foldl_cons]
    obtain ⟨hf2, hflen, hfrk, hfinv, hfpres⟩ :=
      find_spec hinv (hb i (List.mem_cons_self i is))
    rw [ih (uf.find i).1 (acc ++ [(uf.find i).2]) hfinv
      (fun j hj => by rw [hflen]; exact hb j (List.mem_cons_of_mem i hj))]
    rw [List.map_congr_left (fun j _ => hfpres j), hf2, List.map_cons,
      List.append_assoc]
    rfl

/-- The grouping loop returns the semantic roots of `0, …, n-1`. -/
theorem computeRoots_sem (uf : UnionFind) (l : List Nat)
    (hinv : Inv uf.parent uf.rank) (hb : ∀ i ∈ l, i < uf.parent.length) :
    (computeRoots uf l).2 = l.map (rootD uf.parent) := by
  rw [computeRoots, computeRoots_go_sem l uf [] hinv hb]
  rfl

/-- The fully built union-find of `ClusterMatcher.match`: the invariant
holds and every sufficiently overlapping pair of distinct positions ends
in the same class. -/
theorem clusterUF_spec (mo : ℚ) (g r : List ADEvent) :
    Inv (clusterUF mo g r).parent (clusterUF mo g r).rank ∧
    (clusterUF mo g r).parent.length = (unifiedEvents g r).length ∧
    ∀ i j, i < (unifiedEvents g r).length → j < (unifiedEvents g r).length →
      ((unifiedEvents g r).getD i default).event.overlaps_with
        ((unifiedEvents g r).getD j default).event mo = true →
      rootD (clusterUF mo g r).parent i = rootD (clusterUF mo g r).parent j := by
  have hinit := init_inv (unifiedEvents g r).length
  have hinitlen : (UnionFind.init (unifiedEvents g r).length).parent.length =
      (unifiedEvents g r).length := by
    simp [UnionFind.init]
  have hb : ∀ pr ∈ pairsBelow (unifiedEvents g r).length,
      pr.1 < (UnionFind.init (unifiedEvents g r).length).parent.length ∧
      pr.2 < (UnionFind.init (unifiedEvents g r).length).parent.length := by
    intro pr hpr
    rw [hinitlen]
    exact pairsBelow_bound hpr
  obtain ⟨hinv, hlen, _, hconn⟩ := addEdges_spec (unifiedEvents g r) mo
    (pairsBelow (unifiedEvents g r).length)
    (UnionFind.init (unifiedEvents g r).length) hinit hb
  refine ⟨hinv, hlen.trans hinitlen, ?_⟩
  intro i j hi hj hov
  rcases Nat.lt_trichotomy i j with hij | hij | hij
  · exact hconn (i, j) (pairsBelow_mem hij hj) hov
  · rw [hij]
  · exact (hconn (j, i) (pairsBelow_mem hij hi)
      (by rw [overlaps_with_comm]; exact hov)).symm

end ClusterUFSpec



section ClusterRecordMembership

theorem getD_map_range {f : Nat → Nat} {n i : Nat} (h : i < n) :
    ((List.range n).map f).getD i 0 = f i := by
  rw [List.getD_eq_getElem?_getD, List.getElem?_map, List.getElem?_range h]
  rfl

theorem zip_mem_getD {l1 : List Tagged} {l2 : List Nat} {i : Nat}
    (h1 : i < l1.length) (h2 : i < l2.length) :
    (l1.getD i default, l2.getD i 0) ∈ l1.zip l2 := by
  have hz : i < (l1.zip l2).length := by
    rw [List.length_zip]
    exact lt_min h1 h2
  have hmem := List.getElem_mem hz
  rw [List.getElem_zip] at hmem
  have e1 : l1.getD i default = l1[i] := by
    rw [List.getD_eq_getElem?_getD, List.getElem?_eq_getElem h1]
    rfl
  have e2 : l2.getD i 0 = l2[i] := by
    rw [List.getD_eq_getElem?_getD, List.getElem?_eq_getElem h2]
    rfl
  rw [e1, e2]
  exact hmem

/-- A mixed class of the cluster union-find yields exactly one matched
record, and that record contains every event of the class on the side of
its origin. -/
theorem clusterMatch_mixed_record (mo : ℚ) (g r : List ADEvent) (ρ : Nat)
    (hmixg : ∃ a, a < (unifiedEvents g r).length ∧
      rootD (clusterUF mo g r).parent a = ρ ∧
      ((unifiedEvents g r).getD a default).isGen = true)
    (hmixr : ∃ b, b < (unifiedEvents g r).length ∧
      rootD (clusterUF mo g r).parent b = ρ ∧
      ((unifiedEvents g r).getD b default).isGen = false) :
    ∃ rec ∈ clusterMatch mo g r, rec.matched = true ∧
      ∀ i, i < (unifiedEvents g r).length →
        rootD (clusterUF mo g r).parent i = ρ →
        (((unifiedEvents g r).getD i default).isGen = true →
          ((unifiedEvents g r).getD i default).event ∈ rec.gen_events) ∧
        (((unifiedEvents g r).getD i default).isGen = false →
          ((unifiedEvents g r).getD i default).event ∈ rec.ref_events) := by
  obtain ⟨a, ha, haρ, hag⟩ := hmixg
  obtain ⟨b, hb, hbρ, hbr⟩ := hmixr
  obtain ⟨hinv, hlen, _⟩ := clusterUF_spec mo g r
  have hn : ¬(unifiedEvents g r).length = 0 := by omega
  have hbound : ∀ i ∈ List.range (unifiedEvents g r).length,
      i < (clusterUF mo g r).parent.length := by
    intro i hi
    rw [hlen]
    exact List.mem_range.mp hi
  have hroots := computeRoots_sem (clusterUF mo g r)
    (List.range (unifiedEvents g r).length) hinv hbound
  have hrlen : ((List.range (unifiedEvents g r).length).map
      (rootD (clusterUF mo g r).parent)).length = (unifiedEvents g r).length := by
    rw [List.length_map, List.length_range]
  -- membership of each class element in the ρ-cluster
  have hclmem : ∀ i, i < (unifiedEvents g r).length →
      rootD (clusterUF mo g r).parent i = ρ →
      (unifiedEvents g r).getD i default ∈
        (((unifiedEvents g r).zip ((List.range (unifiedEvents g r).length).map
            (rootD (clusterUF mo g r).parent))).filter
          (fun pr => decide (pr.2 = ρ))).map (fun pr => pr.1) := by
    intro i hi hiρ
    have hpair := @zip_mem_getD (unifiedEvents g r)
      ((List.range (unifiedEvents g r).length).map
        (rootD (clusterUF mo g r).parent)) i hi (by rw [hrlen]; exact hi)
    rw [getD_map_range hi] at hpair
    refine List.mem_map.mpr ⟨((unifiedEvents g r).getD i default,
      rootD (clusterUF mo g r).parent i), ?_, rfl⟩
    refine List.mem_filter.mpr ⟨hpair, by simp [hiρ]⟩
  -- ρ is one of the dict keys
  have hρkeys : ρ ∈ firstKeys ((List.range (unifiedEvents g r).length).map
      (rootD (clusterUF mo g r).parent)) := by
    refine mem_firstKeys.mpr (List.mem_map.mpr ⟨a, List.mem_range.mpr ha, haρ⟩)
  -- the ρ-cluster and its record
  have hamem := hclmem a ha haρ
  have hbmem := hclmem b hb hbρ
  have hgenne : (((((unifiedEvents g r).zip
      ((List.range (unifiedEvents g r).length).map
        (rootD (clusterUF mo g r).parent))).filter
      (fun pr => decide (pr.2 = ρ))).map (fun pr => pr.1)).filter
        (fun t => t.isGen)).map (fun t => t.event) ≠ [] := by
    refine List.ne_nil_of_mem (a := ((unifiedEvents g r).getD a default).event) ?_
    exact List.mem_map.mpr ⟨_, List.mem_filter.mpr ⟨hamem, hag⟩, rfl⟩
  have hrefne : (((((unifiedEvents g r).zip
      ((List.range (unifiedEvents g r).length).map
        (rootD (clusterUF mo g r).parent))).filter
      (fun pr => decide (pr.2 = ρ))).map (fun pr => pr.1)).filter
        (fun t => !t.isGen)).map (fun t => t.event) ≠ [] := by
    refine List.ne_nil_of_mem (a := ((unifiedEvents g r).getD b default).event) ?_
    exact List.mem_map.mpr ⟨_, List.mem_filter.mpr ⟨hbmem, by rw [hbr]; rfl⟩, rfl⟩
  have hrec : clusterRecords ((((unifiedEvents g r).zip
      ((List.range (unifiedEvents g r).length).map
        (rootD (clusterUF mo g r).parent))).filter
      (fun pr => decide (pr.2 = ρ))).map (fun pr => pr.1)) =
      [mkClusterPair
        ((((((unifiedEvents g r).zip ((List.range (unifiedEvents g r).length).map
            (rootD (clusterUF mo g r).parent))).filter
          (fun pr => decide (pr.2 = ρ))).map (fun pr => pr.1)).filter
            (fun t => t.isGen)).map (fun t => t.event))
        ((((((unifiedEvents g r).zip ((List.range (unifiedEvents g r).length).map
            (rootD (clusterUF mo g r).parent))).filter
          (fun pr => decide (pr.2 = ρ))).map (fun pr => pr.1)).filter
            (fun t => !t.isGen)).map (fun t => t.event))] := by
    simp only [clusterRecords]
    rw [if_pos ⟨hgenne, hrefne⟩]
  simp only [clusterMatch]
  rw [if_neg hn, hroots]
  refine ⟨mkClusterPair
      ((((((unifiedEvents g r).zip ((List.range (unifiedEvents g r).length).map
          (rootD (clusterUF mo g r).parent))).filter
        (fun pr => decide (pr.2 = ρ))).map (fun pr => pr.1)).filter
          (fun t => t.isGen)).map (fun t => t.event))
      ((((((unifiedEvents g r).zip ((List.range (unifiedEvents g r).length).map
          (rootD (clusterUF mo g r).parent))).filter
        (fun pr => decide (pr.2 = ρ))).map (fun pr => pr.1)).filter
          (fun t => !t.isGen)).map (fun t => t.event)), ?_, rfl, ?_⟩
  · rw [mem_sortS]
    refine List.mem_flatMap.mpr ⟨_, List.mem_map.mpr ⟨ρ, hρkeys, rfl⟩, ?_⟩
    rw [hrec]
    exact List.mem_cons_self _ _
  · intro i hi hiρ
    constructor
    · intro hig
      rw [mkClusterPair]
      refine (mem_sortS startLe).mpr ?_
      exact List.mem_map.mpr ⟨_, List.mem_filter.mpr ⟨hclmem i hi hiρ, hig⟩, rfl⟩
    · intro hir
      rw [mkClusterPair]
      refine (mem_sortS startLe).mpr ?_
      exact List.mem_map.mpr ⟨_, List.mem_filter.mpr ⟨hclmem i hi hiρ, by rw [hir]; rfl⟩, rfl⟩

end ClusterRecordMembership



section TransitivityClaim

/-- C7 as stated is false: a generated-only chain A–B–C (A overlaps B,
B overlaps C, each by ≥ `min_overlap_sec`) lands in one component but is
emitted as three separate `generated_only` records, so no single output
record contains all three events. -/
theorem claim_C7_counterexample :
    (({ start := 0, «end» := 2, text := "A", index := 0 } : ADEvent).overlaps_with
      { start := 1, «end» := 4, text := "B", index := 1 } 1 = true) ∧
    (({ start := 1, «end» := 4, text := "B", index := 1 } : ADEvent).overlaps_with
      { start := 3, «end» := 5, text := "C", index := 2 } 1 = true) ∧
    ¬∃ rec ∈ clusterMatch 1
        [{ start := 0, «end» := 2, text := "A", index := 0 },
          { start := 1, «end» := 4, text := "B", index := 1 },
          { start := 3, «end» := 5, text := "C", index := 2 }] [],
        (({ start := 0, «end» := 2, text := "A", index := 0 } : ADEvent) ∈
            rec.gen_events ∨
          ({ start := 0, «end» := 2, text := "A", index := 0 } : ADEvent) ∈
            rec.ref_events) ∧
        (({ start := 1, «end» := 4, text := "B", index := 1 } : ADEvent) ∈
            rec.gen_events ∨
          ({ start := 1, «end» := 4, text := "B", index := 1 } : ADEvent) ∈
            rec.ref_events) ∧
        (({ start := 3, «end» := 5, text := "C", index := 2 } : ADEvent) ∈
            rec.gen_events ∨
          ({ start := 3, «end» := 5, text := "C", index := 2 } : ADEvent) ∈
            rec.ref_events) := by
  refine ⟨of_decide_eq_true (by with_unfolding_all rfl),
    of_decide_eq_true (by with_unfolding_all rfl), ?_⟩
  exact of_decide_eq_true (by with_unfolding_all rfl)

/-- C7 (amended): if A overlaps B and B overlaps C by at least
`min_overlap_sec` (positions in the unified working list), the three events
land in the same union-find component; and when that component contains
events of both origins, the single matched `cluster` record emitted for it
contains all three events.  (A single-origin component instead emits one
unmatched record per event — see the counterexample.) -/
theorem claim_C7 (mo : ℚ) (g r : List ADEvent) (ia ib ic : Nat)
    (hia : ia < (unifiedEvents g r).length)
    (hib : ib < (unifiedEvents g r).length)
    (hic : ic < (unifiedEvents g r).length)
    (hab : ((unifiedEvents g r).getD ia default).event.overlaps_with
      ((unifiedEvents g r).getD ib default).event mo = true)
    (hbc : ((unifiedEvents g r).getD ib default).event.overlaps_with
      ((unifiedEvents g r).getD ic default).event mo = true)
    (hmixg : ∃ a, a < (unifiedEvents g r).length ∧
      rootD (clusterUF mo g r).parent a = rootD (clusterUF mo g r).parent ia ∧
      ((unifiedEvents g r).getD a default).isGen = true)
    (hmixr : ∃ b, b < (unifiedEvents g r).length ∧
      rootD (clusterUF mo g r).parent b = rootD (clusterUF mo g r).parent ia ∧
      ((unifiedEvents g r).getD b default).isGen = false) :
    rootD (clusterUF mo g r).parent ia = rootD (clusterUF mo g r).parent ib ∧
    rootD (clusterUF mo g r).parent ib = rootD (clusterUF mo g r).parent ic ∧
    ∃ rec ∈ clusterMatch mo g r, rec.matched = true ∧
      ∀ k, (k = ia ∨ k = ib ∨ k = ic) →
        ((unifiedEvents g r).getD k default).event ∈ rec.gen_events ∨
        ((unifiedEvents g r).getD k default).event ∈ rec.ref_events := by
  obtain ⟨_, _, hconn⟩ := clusterUF_spec mo g r
  have h1 := hconn ia ib hia hib hab
  have h2 := hconn ib ic hib hic hbc
  obtain ⟨rec, hrecmem, hrecmatched, hrecall⟩ := clusterMatch_mixed_record mo g r
    (rootD (clusterUF mo g r).parent ia) hmixg hmixr
  refine ⟨h1, h2, rec, hrecmem, hrecmatched, ?_⟩
  intro k hk
  have hkn : k < (unifiedEvents g r).length := by
    rcases hk with h | h | h <;> (subst h; assumption)
  have hkρ : rootD (clusterUF mo g r).parent k =
      rootD (clusterUF mo g r).parent ia := by
    rcases hk with h | h | h <;> subst h
    · rfl
    · exact h1.symm
    · exact (h1.trans h2).symm
  have hboth := hrecall k hkn hkρ
  cases hkg : ((unifiedEvents g r).getD k default).isGen with
  | false => exact Or.inr (hboth.2 hkg)
  | true => exact Or.inl (hboth.1 hkg)

/-- Witness for C7 (amended): generated A and C linked through reference
B; the single cluster record contains all three events. -/
theorem claim_C7_witness :
    rootD (clusterUF 1 [{ start := 0, «end» := 2, text := "A", index := 0 },
        { start := 3, «end» := 5, text := "C", index := 1 }]
        [{ start := 1, «end» := 4, text := "B", index := 0 }]).parent 0 =
      rootD (clusterUF 1 [{ start := 0, «end» := 2, text := "A", index := 0 },
        { start := 3, «end» := 5, text := "C", index := 1 }]
        [{ start := 1, «end» := 4, text := "B", index := 0 }]).parent 2 ∧
    ∃ rec ∈ clusterMatch 1 [{ start := 0, «end» := 2, text := "A", index := 0 },
        { start := 3, «end» := 5, text := "C", index := 1 }]
        [{ start := 1, «end» := 4, text := "B", index := 0 }],
      rec.matched = true ∧
      ∀ k, (k = 0 ∨ k = 2 ∨ k = 1) →
        ((unifiedEvents [{ start := 0, «end» := 2, text := "A", index := 0 },
            { start := 3, «end» := 5, text := "C", index := 1 }]
            [{ start := 1, «end» := 4, text := "B", index := 0 }]).getD k
          default).event ∈ rec.gen_events ∨
        ((unifiedEvents [{ start := 0, «end» := 2, text := "A", index := 0 },
            { start := 3, «end» := 5, text := "C", index := 1 }]
            [{ start := 1, «end» := 4, text := "B", index := 0 }]).getD k
          default).event ∈ rec.ref_events := by
  have h := claim_C7 1
    [{ start := 0, «end» := 2, text := "A", index := 0 },
      { start := 3, «end» := 5, text := "C", index := 1 }]
    [{ start := 1, «end» := 4, text := "B", index := 0 }]
    0 2 1 (by decide) (by decide) (by decide)
    (of_decide_eq_true (by with_unfolding_all rfl))
    (of_decide_eq_true (by with_unfolding_all rfl))
    ⟨0, by decide, by exact rfl, by decide⟩
    ⟨2, by decide, of_decide_eq_true (by with_unfolding_all rfl), by decide⟩
  exact ⟨h.1, h.2.2⟩

end TransitivityClaim

section ZeroOverlapClaim

/-- C9: any non-positive `min_overlap` makes `overlaps_with` universally
true (the overlap duration is clamped at `0`); with `min_overlap_sec = 0`
every pair of positions of the Cluster matcher's working list ends up in
one component, and every Overlap matcher record collects all reference
events (its reference events are a permutation of the full reference
list), however far apart the events are. -/
theorem claim_C9 (a b : ADEvent) (m : ℚ) (hm : m ≤ 0) (g r : List ADEvent)
    (i j : Nat) (hi : i < (unifiedEvents g r).length)
    (hj : j < (unifiedEvents g r).length) (k : Nat) (hk : k < g.length) :
    a.overlaps_with b m = true ∧
    rootD (clusterUF 0 g r).parent i = rootD (clusterUF 0 g r).parent j ∧
    ((overlapMatch 0 g r).getD k default).ref_events.Perm r := by
  have hov : ∀ c d : ADEvent, ∀ m2 : ℚ, m2 ≤ 0 → c.overlaps_with d m2 = true := by
    intro c d m2 hm2
    simp only [ADEvent.overlaps_with, decide_eq_true_eq]
    exact le_trans hm2 (le_max_left 0 _)
  obtain ⟨_, _, hconn⟩ := clusterUF_spec 0 g r
  have hq : qualifying 0 (g.getD k default) r = r := by
    rw [qualifying]
    refine (List.filter_congr (fun x _ => ?_)).trans (List.filter_true r)
    exact decide_eq_true (le_max_left 0 _)
  have hgd := getD_overlapMatch 0 g r k hk
  have hspec := overlapRecord_spec 0 (g.getD k default) r
  refine ⟨hov a b m hm, hconn i j hi hj (hov _ _ 0 le_rfl), ?_⟩
  rw [hgd]
  by_cases hrnil : r = []
  · have hqnil : qualifying 0 (g.getD k default) r = [] := by rw [hq, hrnil]
    rw [(hspec.2.2.2.2.2.1 hqnil).2.2.1, hrnil]
  · have := (hspec.2.2.2.2.2.2 (by rw [hq]; exact hrnil)).2.2.1
    rw [hq] at this
    exact this

/-- Witness for C9: two far-apart events still overlap at `m = -1`; with
`min_overlap_sec = 0` the two far-apart working-list positions share a
component and the single overlap record collects the whole reference
list. -/
theorem claim_C9_witness :
    (({ start := 0, «end» := 1, text := "x", index := 0 } : ADEvent).overlaps_with
      { start := 100, «end» := 101, text := "y", index := 0 } (-1) = true) ∧
    rootD (clusterUF 0 [{ start := 0, «end» := 1, text := "x", index := 0 }]
        [{ start := 100, «end» := 101, text := "y", index := 0 }]).parent 0 =
      rootD (clusterUF 0 [{ start := 0, «end» := 1, text := "x", index := 0 }]
        [{ start := 100, «end» := 101, text := "y", index := 0 }]).parent 1 ∧
    ((overlapMatch 0 [{ start := 0, «end» := 1, text := "x", index := 0 }]
        [{ start := 100, «end» := 101, text := "y", index := 0 }]).getD 0
      default).ref_events.Perm
        [{ start := 100, «end» := 101, text := "y", index := 0 }] := by
  exact claim_C9 { start := 0, «end» := 1, text := "x", index := 0 }
    { start := 100, «end» := 101, text := "y", index := 0 } (-1) (by norm_num)
    [{ start := 0, «end» := 1, text := "x", index := 0 }]
    [{ start := 100, «end» := 101, text := "y", index := 0 }]
    0 1 (by decide) (by decide) 0 (by decide)

end ZeroOverlapClaim


end KoAD
